import Mathlib

/-!
# Verification of the rTorrent core against its specification

A shallow embedding of the rTorrent library (bencode codec, metadata
decoder, peer-wire message codec, piece manager) together with proofs of
the specification's claims about it.

Bytes are modelled as `Nat` (values < 256 where the Rust type enforces it),
byte buffers as `List Nat`, `i64`/`usize` as `Int`/`Nat` with explicit
range checks where the Rust code performs them (string parsing), and
`BTreeMap<Vec<u8>, _>` as an association list kept sorted by the
lexicographic byte order (the iteration order of a `BTreeMap`).
Fallible Rust functions return `Except`; Rust panics are modelled by an
`Option` layer (or a dedicated outcome constructor) so that every
embedded function is total.
-/

/-- Lexicographic strict order on byte strings, matching the `Ord`
instance of `Vec<u8>` that `BTreeMap` sorts by: a strict prefix is
smaller, otherwise the first differing byte decides. -/
def byteLt : List Nat → List Nat → Bool
  | [], [] => false
  | [], _ :: _ => true
  | _ :: _, [] => false
  | a :: as, b :: bs => if a < b then true else if b < a then false else byteLt as bs

/-- The canonical in-memory bencode value (`BencodeType` in
`bencode.rs`): integer, byte string, list, dictionary.  The dictionary
payload models `BencodeMap = BTreeMap<Vec<u8>, BencodeType>` as its
sorted association list. -/
inductive Bencode where
  | int (x : Int)
  | str (s : List Nat)
  | list (xs : List Bencode)
  | dict (entries : List (List Nat × Bencode))

/-- `BTreeMap::get`: the value stored at a key (on sorted lists the first
match is the only one). -/
def mapLookup : List (List Nat × Bencode) → List Nat → Option Bencode
  | [], _ => none
  | (k, v) :: rest, key => if k = key then some v else mapLookup rest key

/-- `BTreeMap::insert`: insert at the sorted position, replacing the
value when the key is already present. -/
def mapInsert : List (List Nat × Bencode) → List Nat → Bencode → List (List Nat × Bencode)
  | [], key, v => [(key, v)]
  | (k, w) :: rest, key, v =>
    if byteLt key k then (key, v) :: (k, w) :: rest
    else if key = k then (key, v) :: rest
    else (k, w) :: mapInsert rest key v

/-- `BTreeMap::contains_key`. -/
def mapContains (m : List (List Nat × Bencode)) (key : List Nat) : Bool :=
  (mapLookup m key).isSome

/-- ASCII bytes of a string literal (all keys used by the sources are
ASCII). -/
def strBytes (s : String) : List Nat := s.data.map Char.toNat

/-- Decimal digits of a natural number, least significant first.  The
first argument is a recursion budget; any budget of at least the number
itself yields the digits (`natDigitsAux_fuel`). -/
def natDigitsAux : Nat → Nat → List Nat
  | _, 0 => []
  | 0, _ + 1 => []
  | fuel + 1, n + 1 => ((n + 1) % 10 + 48) :: natDigitsAux fuel ((n + 1) / 10)

/-- ASCII decimal rendering of a natural number, as produced by Rust's
`to_string` on unsigned integers. -/
def natDigits (n : Nat) : List Nat :=
  if n = 0 then [48] else (natDigitsAux n n).reverse

/-- ASCII decimal rendering of a signed integer, as produced by Rust's
`to_string` on `i64`. -/
def intChars (x : Int) : List Nat :=
  if x < 0 then 45 :: natDigits x.natAbs else natDigits x.natAbs

/-- Numeric value of a big-endian ASCII digit string. -/
def digitsVal (l : List Nat) : Nat := l.foldl (fun acc d => acc * 10 + (d - 48)) 0

/-- All bytes of the list are ASCII decimal digits. -/
def allDigits (l : List Nat) : Bool := l.all (fun d => 48 ≤ d && d ≤ 57)

/-- Rust `str::parse::<u64>` (= `usize` on a 64-bit target): an optional
leading plus sign, then at least one decimal digit, rejecting values
above `2^64 - 1`. -/
def parseUsize (s : List Nat) : Option Nat :=
  let body := if s.head? = some 43 then s.tail else s
  if body ≠ [] && allDigits body && digitsVal body < 2 ^ 64 then
    some (digitsVal body)
  else none

/-- Rust `str::parse::<i64>`: an optional leading sign, then at least one
decimal digit, rejecting values outside `[-2^63, 2^63 - 1]`. -/
def parseI64 (s : List Nat) : Option Int :=
  if s.head? = some 45 then
    if s.tail ≠ [] && allDigits s.tail && digitsVal s.tail ≤ 2 ^ 63 then
      some (-Int.ofNat (digitsVal s.tail))
    else none
  else
    let body := if s.head? = some 43 then s.tail else s
    if body ≠ [] && allDigits body && digitsVal body ≤ 2 ^ 63 - 1 then
      some (Int.ofNat (digitsVal body))
    else none

/-- Is a continuation byte (`0x80..=0xBF`)? -/
def utf8Cont (b : Nat) : Bool := 128 ≤ b && b ≤ 191

/-- Rust `String::from_utf8` validity (RFC 3629 byte ranges). -/
def utf8Valid : List Nat → Bool
  | [] => true
  | b :: rest =>
    if b ≤ 127 then utf8Valid rest
    else
      match rest with
      | [] => false
      | b2 :: r2 =>
        if 194 ≤ b && b ≤ 223 then utf8Cont b2 && utf8Valid r2
        else
          match r2 with
          | [] => false
          | b3 :: r3 =>
            if b = 224 then (160 ≤ b2 && b2 ≤ 191) && utf8Cont b3 && utf8Valid r3
            else if 225 ≤ b && b ≤ 236 then utf8Cont b2 && utf8Cont b3 && utf8Valid r3
            else if b = 237 then (128 ≤ b2 && b2 ≤ 159) && utf8Cont b3 && utf8Valid r3
            else if 238 ≤ b && b ≤ 239 then utf8Cont b2 && utf8Cont b3 && utf8Valid r3
            else
              match r3 with
              | [] => false
              | b4 :: r4 =>
                if b = 240 then
                  (144 ≤ b2 && b2 ≤ 191) && utf8Cont b3 && utf8Cont b4 && utf8Valid r4
                else if 241 ≤ b && b ≤ 243 then
                  utf8Cont b2 && utf8Cont b3 && utf8Cont b4 && utf8Valid r4
                else if b = 244 then
                  (128 ≤ b2 && b2 ≤ 143) && utf8Cont b3 && utf8Cont b4 && utf8Valid r4
                else false

/-- The bencode error type (`BencodeParseErr` in `bencode.rs`), with the
message strings it carries.  `OutOfFuel` is a modelling device for the
recursion budget of the embedded decoder; the budgets supplied by
`decodeToVec` are proven sufficient on every input the theorems touch. -/
inductive BencodeParseErr where
  | EmptyBencode
  | InvalidBencode (s : String)
  | InvalidIntegerBencode (s : String)
  | InvalidListBencode (s : String)
  | InvalidDictionaryBencode (s : String)
  | InvalidStringBencode (s : String)
  | OutOfFuel
deriving DecidableEq

def ERROR_MISSING_PREFIX : String := "Missing prefix value"
def ERROR_MISSING_SUFFIX : String := "Missing suffix value"
def ERROR_INVALID_INTEGER : String := "Invalid integer"
def ERROR_NON_NUMERIC_CHARACTER : String := "Non-numeric character in integer"
def ERROR_NEGATIVE_ZERO : String := "-0 is an invalid integer"
def ERROR_NOT_ENOUGH_CHARS : String := "Not enough characters"
def ERROR_INVALID_KEY : String := "Invalid key. Keys must be of type String"
def ERROR_INVALID_UTF8 : String := "Error converting bytes to UTF8"
def ERROR_INVALID_DICT : String := "Invalid dictionary"

/-- The byte-consuming loop of `read_integer`: pushes `-` and decimal
digits onto the accumulator, silently skips over further `i` bytes
(`INT_PREFIX => continue`), stops at the first `e`, and fails on any
other byte.  Returns the accumulated characters and the unconsumed
input. -/
def readIntegerLoop : List Nat → List Nat → Except BencodeParseErr (List Nat × List Nat)
  | [], temp => .ok (temp, [])
  | x :: rest, temp =>
    if x = 45 then readIntegerLoop rest (temp ++ [x])
    else if 48 ≤ x ∧ x ≤ 57 then readIntegerLoop rest (temp ++ [x])
    else if x = 105 then readIntegerLoop rest temp
    else if x = 101 then .ok (temp, rest)
    else .error (.InvalidIntegerBencode ERROR_NON_NUMERIC_CHARACTER)

/-- `read_integer` of `bencode.rs`: run the loop, reject the literal
`-0`, then parse through Rust's `i64` parser. -/
def readInteger (l : List Nat) : Except BencodeParseErr (Bencode × List Nat) := do
  let (temp, rest) ← readIntegerLoop l []
  if temp = [45, 48] then
    .error (.InvalidIntegerBencode ERROR_NEGATIVE_ZERO)
  else
    match parseI64 temp with
    | some v => .ok (.int v, rest)
    | none => .error (.InvalidIntegerBencode ERROR_INVALID_INTEGER)

/-- `iter.take_while(|ch| ch != STRING_DELIMITER)`: the bytes before the
first `:` (the iterator also consumes the delimiter itself, accounted
for in `readString` by dropping one extra byte). -/
def takeUntilColon : List Nat → List Nat
  | [] => []
  | b :: rest => if b = 58 then [] else b :: takeUntilColon rest

/-- `read_string` of `bencode.rs`: take the length prefix up to (and
consuming) the `:` delimiter, check it is UTF-8, non-empty and numeric,
then take exactly that many bytes. -/
def readString (l : List Nat) : Except BencodeParseErr (Bencode × List Nat) :=
  let lenBytes := takeUntilColon l
  let remaining := l.drop (lenBytes.length + 1)
  if ¬ utf8Valid lenBytes then .error (.InvalidStringBencode ERROR_INVALID_UTF8)
  else if lenBytes = [] then .error (.InvalidStringBencode ERROR_MISSING_PREFIX)
  else
    match parseUsize lenBytes with
    | none => .error (.InvalidStringBencode ERROR_NON_NUMERIC_CHARACTER)
    | some n =>
      let result := remaining.take n
      if result.length ≠ n then .error (.InvalidStringBencode ERROR_NOT_ENOUGH_CHARS)
      else .ok (.str result, remaining.drop n)

mutual

/-- `read_value` of `bencode.rs`: dispatch on the first byte
(`i` integer, `l` list, `d` dictionary, digit string).  The `Nat`
argument is the recursion budget for the list and dictionary loops; the
prefix byte of those two forms is consumed here, as `read_list` and
`read_dictionary` do with `iter.next()`. -/
def readValueF : Nat → List Nat → Except BencodeParseErr (Bencode × List Nat)
  | _, [] => .error .EmptyBencode
  | 0, _ :: _ => .error .OutOfFuel
  | fuel + 1, c :: cs =>
    if c = 105 then readInteger (c :: cs)
    else if c = 108 then readListItems fuel cs []
    else if c = 100 then readDictEntries fuel cs []
    else if 48 ≤ c ∧ c ≤ 57 then readString (c :: cs)
    else .error (.InvalidBencode (toString c))

/-- The element loop of `read_list`: values are read until the closing
`e`, which is consumed; a missing terminator fails. -/
def readListItems : Nat → List Nat → List Bencode →
    Except BencodeParseErr (Bencode × List Nat)
  | 0, _, _ => .error .OutOfFuel
  | _ + 1, [], _ => .error (.InvalidListBencode ERROR_MISSING_SUFFIX)
  | fuel + 1, c :: cs, acc =>
    if c = 101 then .ok (.list acc, cs)
    else
      match readValueF fuel (c :: cs) with
      | .error e => .error e
      | .ok (v, rest) => readListItems fuel rest (acc ++ [v])

/-- The entry loop of `read_dictionary`: a digit starts a key (read as a
value, which must come back as a byte string), then the value is read
and inserted; the closing `e` is consumed; any other byte fails with the
invalid-key error. -/
def readDictEntries : Nat → List Nat → List (List Nat × Bencode) →
    Except BencodeParseErr (Bencode × List Nat)
  | 0, _, _ => .error .OutOfFuel
  | _ + 1, [], _ => .error (.InvalidDictionaryBencode ERROR_MISSING_SUFFIX)
  | fuel + 1, c :: cs, acc =>
    if c = 101 then .ok (.dict acc, cs)
    else if 48 ≤ c ∧ c ≤ 57 then
      match readValueF fuel (c :: cs) with
      | .error e => .error e
      | .ok (kv, rest) =>
        match kv with
        | .str k =>
          match readValueF fuel rest with
          | .error e => .error e
          | .ok (v, rest2) => readDictEntries fuel rest2 (mapInsert acc k v)
        | _ => .error (.InvalidDictionaryBencode ERROR_INVALID_KEY)
    else .error (.InvalidDictionaryBencode ERROR_INVALID_KEY)

end

/-- The value loop of `decode_to_vec`: read values while input remains.
The budget decreases once per value; every successful read consumes at
least one byte, so the budget `decodeToVec` supplies never runs out. -/
def decodeLoop : Nat → List Nat → List Bencode → Except BencodeParseErr (List Bencode)
  | _, [], acc => .ok acc
  | 0, _ :: _, _ => .error .OutOfFuel
  | fuel + 1, c :: cs, acc =>
    match readValueF (c :: cs).length (c :: cs) with
    | .error e => .error e
    | .ok (v, rest) => decodeLoop fuel rest (acc ++ [v])

/-- `decode_to_vec` of `bencode.rs`. -/
def decodeToVec (encoded : List Nat) : Except BencodeParseErr (List Bencode) :=
  decodeLoop encoded.length encoded []

/-- `encode_string` of `bencode.rs`: decimal length, `:`, raw bytes. -/
def encodeStr (s : List Nat) : List Nat := natDigits s.length ++ 58 :: s

mutual

/-- `encode` of `bencode.rs`: the canonical byte rendering.  Dictionary
entries are emitted in the association list's order, which is the
`BTreeMap` iteration order (ascending keys) whenever the list satisfies
the sorted invariant. -/
def encodeB : Bencode → List Nat
  | .int x => 105 :: intChars x ++ [101]
  | .str s => encodeStr s
  | .list xs => 108 :: encodeItems xs ++ [101]
  | .dict es => 100 :: encodeEntries es ++ [101]

/-- Concatenated encodings of list elements. -/
def encodeItems : List Bencode → List Nat
  | [] => []
  | x :: xs => encodeB x ++ encodeItems xs

/-- Concatenated encodings of dictionary entries (key string, then
value). -/
def encodeEntries : List (List Nat × Bencode) → List Nat
  | [] => []
  | (k, v) :: es => encodeStr k ++ encodeB v ++ encodeEntries es

end

/-- Adjacent keys strictly ascending in byte order (the `BTreeMap`
invariant on the association-list model). -/
def sortedKeys : List (List Nat × Bencode) → Bool
  | [] => true
  | [_] => true
  | (k, _) :: (k2, v2) :: es => byteLt k k2 && sortedKeys ((k2, v2) :: es)

mutual

/-- A bencode value representable by the Rust program with the sorted
dictionary invariant of `BTreeMap`: integers fit in `i64`, byte-string
and key lengths fit in `usize`, and dictionary keys are strictly
ascending at every nesting level. -/
def validValue : Bencode → Bool
  | .int x => -(2 ^ 63) ≤ x && x ≤ 2 ^ 63 - 1
  | .str s => s.length < 2 ^ 64
  | .list xs => validItems xs
  | .dict es => sortedKeys es && validEntries es

def validItems : List Bencode → Bool
  | [] => true
  | x :: xs => validValue x && validItems xs

def validEntries : List (List Nat × Bencode) → Bool
  | [] => true
  | (k, v) :: es => k.length < 2 ^ 64 && validValue v && validEntries es

end

mutual

/-- Recursion budget sufficient for the embedded decoder on the encoding
of a value (established by `fuelNeed_le_length_encodeB`). -/
def fuelNeed : Bencode → Nat
  | .int _ => 1
  | .str _ => 1
  | .list xs => 1 + fuelNeedItems xs
  | .dict es => 1 + fuelNeedEntries es

/-- Budget for the list-element loop. -/
def fuelNeedItems : List Bencode → Nat
  | [] => 1
  | x :: xs => 1 + max (fuelNeed x) (fuelNeedItems xs)

/-- Budget for the dictionary-entry loop. -/
def fuelNeedEntries : List (List Nat × Bencode) → Nat
  | [] => 1
  | (_, v) :: es => 1 + max (fuelNeed v) (fuelNeedEntries es)

end

/-- Value at the last occurrence of a key among raw (possibly duplicated,
possibly unsorted) dictionary entries. -/
def lastOcc : List (List Nat × Bencode) → List Nat → Option Bencode
  | [], _ => none
  | (k, v) :: rest, key =>
    match lastOcc rest key with
    | some w => some w
    | none => if k = key then some v else none

/-- Strong induction on bencode values, giving the hypotheses for all
members of list and dictionary payloads. -/
def bencodeStrongInd (P : Bencode → Prop)
    (hint : ∀ x, P (.int x)) (hstr : ∀ s, P (.str s))
    (hlist : ∀ xs, (∀ b, b ∈ xs → P b) → P (.list xs))
    (hdict : ∀ es, (∀ kv, kv ∈ es → P kv.2) → P (.dict es)) :
    ∀ v, P v
  | .int x => hint x
  | .str s => hstr s
  | .list xs =>
    hlist xs (fun b _hb => bencodeStrongInd P hint hstr hlist hdict b)
  | .dict es =>
    hdict es (fun kv _hkv => bencodeStrongInd P hint hstr hlist hdict kv.2)
termination_by v => sizeOf v
decreasing_by
  · have := List.sizeOf_lt_of_mem _hb
    simp only [Bencode.list.sizeOf_spec]
    omega
  · have h1 := List.sizeOf_lt_of_mem _hkv
    have h2 : sizeOf kv.2 < sizeOf kv := by
      obtain ⟨k, v⟩ := kv
      simp only [Prod.mk.sizeOf_spec]
      omega
    simp only [Bencode.dict.sizeOf_spec]
    omega

/-! ## SHA-1 (the `sha1` crate used by `piece_manager.rs` and for the
info-hash), implemented over byte lists with arithmetic modulo `2^32`. -/

/-- 32-bit left rotation. -/
def rotl32 (n x : Nat) : Nat := ((x <<< n) % 2 ^ 32) ||| ((x % 2 ^ 32) >>> (32 - n))

/-- Big-endian 32-bit word from four bytes. -/
def word32 (b0 b1 b2 b3 : Nat) : Nat := b0 * 2 ^ 24 + b1 * 2 ^ 16 + b2 * 2 ^ 8 + b3

/-- The sixteen big-endian words of a 64-byte block. -/
def blockWords : List Nat → List Nat
  | b0 :: b1 :: b2 :: b3 :: rest => word32 b0 b1 b2 b3 :: blockWords rest
  | _ => []

/-- Message-schedule extension: grow the word list to 80 entries using
`w[i] = rotl1 (w[i-3] xor w[i-8] xor w[i-14] xor w[i-16])`. -/
def sha1Extend : Nat → List Nat → List Nat
  | 0, ws => ws
  | n + 1, ws =>
    let i := ws.length
    sha1Extend n (ws ++ [rotl32 1 (((ws.getD (i - 3) 0).xor
      ((ws.getD (i - 8) 0).xor ((ws.getD (i - 14) 0).xor (ws.getD (i - 16) 0)))))])

/-- The round function and constant for round `t`. -/
def sha1FK (t b c d : Nat) : Nat × Nat :=
  if t < 20 then ((b.land c).lor ((b.xor (2 ^ 32 - 1)).land d), 1518500249)
  else if t < 40 then (b.xor (c.xor d), 1859775393)
  else if t < 60 then ((b.land c).lor ((b.land d).lor (c.land d)), 2400959708)
  else (b.xor (c.xor d), 3395469782)

/-- One round of the SHA-1 compression function. -/
def sha1Round (t w : Nat) : Nat × Nat × Nat × Nat × Nat → Nat × Nat × Nat × Nat × Nat :=
  fun (a, b, c, d, e) =>
    let (f, k) := sha1FK t b c d
    ((rotl32 5 a + f + e + k + w) % 2 ^ 32, a, rotl32 30 b, c, d)

/-- The 80 rounds over the extended schedule, threading the working
state; `t` is the index of the next round. -/
def sha1Rounds : Nat → List Nat → Nat × Nat × Nat × Nat × Nat →
    Nat × Nat × Nat × Nat × Nat
  | _, [], st => st
  | t, w :: ws, st => sha1Rounds (t + 1) ws (sha1Round t w st)

/-- Compression of one 64-byte block into the running hash state. -/
def sha1Block (h : Nat × Nat × Nat × Nat × Nat) (block : List Nat) :
    Nat × Nat × Nat × Nat × Nat :=
  let (h0, h1, h2, h3, h4) := h
  let (a, b, c, d, e) := sha1Rounds 0 (sha1Extend 64 (blockWords block)) (h0, h1, h2, h3, h4)
  ((h0 + a) % 2 ^ 32, (h1 + b) % 2 ^ 32, (h2 + c) % 2 ^ 32, (h3 + d) % 2 ^ 32,
    (h4 + e) % 2 ^ 32)

/-- Split a padded message into 64-byte blocks (the budget is the block
count; `chunks64` always supplies enough). -/
def chunks64Aux : Nat → List Nat → List (List Nat)
  | _, [] => []
  | 0, _ :: _ => []
  | fuel + 1, b :: rest => (b :: rest).take 64 :: chunks64Aux fuel ((b :: rest).drop 64)

/-- Split a padded message into 64-byte blocks. -/
def chunks64 (l : List Nat) : List (List Nat) := chunks64Aux l.length l

/-- Big-endian bytes of a 32-bit word. -/
def bytesOfWord32 (w : Nat) : List Nat :=
  [w / 2 ^ 24 % 256, w / 2 ^ 16 % 256, w / 2 ^ 8 % 256, w % 256]

/-- Big-endian bytes of the 64-bit message bit length. -/
def bytesOfLen64 (n : Nat) : List Nat :=
  [n / 2 ^ 56 % 256, n / 2 ^ 48 % 256, n / 2 ^ 40 % 256, n / 2 ^ 32 % 256,
    n / 2 ^ 24 % 256, n / 2 ^ 16 % 256, n / 2 ^ 8 % 256, n % 256]

/-- SHA-1 padding: `0x80`, zeros to 56 mod 64, the bit length as eight
big-endian bytes. -/
def sha1Pad (msg : List Nat) : List Nat :=
  msg ++ 128 :: List.replicate ((119 - msg.length % 64) % 64) 0 ++
    bytesOfLen64 (8 * msg.length)

/-- SHA-1 of a byte message, as a list of 20 bytes. -/
def sha1 (msg : List Nat) : List Nat :=
  let (h0, h1, h2, h3, h4) := (chunks64 (sha1Pad msg)).foldl sha1Block
    (1732584193, 4023233417, 2562383102, 271733878, 3285377520)
  bytesOfWord32 h0 ++ bytesOfWord32 h1 ++ bytesOfWord32 h2 ++ bytesOfWord32 h3 ++
    bytesOfWord32 h4

/-! ## Peer-wire message codec (`message.rs`) -/

/-- The peer-wire message (`Message` in `message.rs`); `u32` fields are
naturals below `2^32`, `u16` below `2^16`. -/
inductive Message where
  | KeepAlive
  | Choke
  | Unchoke
  | Interested
  | NotInterested
  | Have (index : Nat)
  | Bitfield (bitfield : List Nat)
  | Request (index begin_ length : Nat)
  | Piece (index begin_ : Nat) (block : List Nat)
  | Cancel (index begin_ length : Nat)
  | Port (port : Nat)
deriving DecidableEq

/-- The message-codec error type (`MessageErr`), without the `IoError`
variant that only the stream reader produces. -/
inductive MessageErr where
  | InvalidMessageLength
  | InvalidMessageId
  | MissingPayload
  | InvalidPayload
  | InvalidMessage
deriving DecidableEq

/-- `BufMut::put_u32`: four big-endian bytes of the value modulo `2^32`
(the `as u32` casts in `to_bytes` wrap the same way). -/
def u32be (n : Nat) : List Nat :=
  [n / 2 ^ 24 % 256, n / 2 ^ 16 % 256, n / 2 ^ 8 % 256, n % 256]

/-- `BufMut::put_u16`. -/
def u16be (n : Nat) : List Nat := [n / 2 ^ 8 % 256, n % 256]

/-- `u32::from_be_bytes` of the first four bytes. -/
def be32 (l : List Nat) : Nat :=
  l.getD 0 0 * 2 ^ 24 + l.getD 1 0 * 2 ^ 16 + l.getD 2 0 * 2 ^ 8 + l.getD 3 0

/-- `Buf::get_u16` value of the first two bytes. -/
def be16 (l : List Nat) : Nat := l.getD 0 0 * 2 ^ 8 + l.getD 1 0

/-- `Message::to_bytes`: length-prefixed canonical framing. -/
def Message.toBytes : Message → List Nat
  | .KeepAlive => u32be 0
  | .Choke => u32be 1 ++ [0]
  | .Unchoke => u32be 1 ++ [1]
  | .Interested => u32be 1 ++ [2]
  | .NotInterested => u32be 1 ++ [3]
  | .Have index => u32be 5 ++ [4] ++ u32be index
  | .Bitfield bitfield => u32be (1 + bitfield.length) ++ [5] ++ bitfield
  | .Request index begin_ length => u32be 13 ++ [6] ++ u32be index ++ u32be begin_ ++ u32be length
  | .Piece index begin_ block => u32be (9 + block.length) ++ [7] ++ u32be index ++ u32be begin_ ++ block
  | .Cancel index begin_ length => u32be 13 ++ [8] ++ u32be index ++ u32be begin_ ++ u32be length
  | .Port port => u32be 3 ++ [9] ++ u16be port

/-- The outcome of `Message::from_bytes`: a parsed message, an error
result, or a Rust panic (out-of-bounds index or a `bytes::Buf` getter on
a buffer with too few remaining bytes). -/
inductive ParseOutcome where
  | ok (m : Message)
  | err (e : MessageErr)
  | crash
deriving DecidableEq

/-- `Message::from_bytes`.  Mirrors the source statement by statement:
the length check on the first four bytes, the `KeepAlive` early return,
the *unchecked* `bytes[4]` read (a panic when the buffer has exactly
four bytes), the id bound, the truncation check against `4 + length`,
the optional payload slice `bytes[5 .. 4 + length]` taken only when
`length > 1`, and the per-id payload reads whose `get_u32`/`get_u16`
panic when the payload is too short. -/
def Message.fromBytes (bytes : List Nat) : ParseOutcome :=
  if bytes.length < 4 then .err .InvalidMessageLength
  else
    let length := be32 bytes
    if length = 0 then .ok .KeepAlive
    else
      match bytes.get? 4 with
      | none => .crash
      | some id =>
        if id > 9 then .err .InvalidMessageId
        else if bytes.length < 4 + length then .err .InvalidMessageLength
        else
          let payload : Option (List Nat) :=
            if length > 1 then some ((bytes.drop 5).take (length - 1)) else none
          match id with
          | 0 => .ok .Choke
          | 1 => .ok .Unchoke
          | 2 => .ok .Interested
          | 3 => .ok .NotInterested
          | 4 =>
            match payload with
            | none => .err .MissingPayload
            | some buf => if buf.length < 4 then .crash else .ok (.Have (be32 buf))
          | 5 =>
            match payload with
            | none => .err .MissingPayload
            | some buf => .ok (.Bitfield buf)
          | 6 =>
            match payload with
            | none => .err .MissingPayload
            | some buf =>
              if buf.length < 12 then .crash
              else .ok (.Request (be32 buf) (be32 (buf.drop 4)) (be32 (buf.drop 8)))
          | 7 =>
            match payload with
            | none => .err .MissingPayload
            | some buf =>
              if buf.length < 8 then .crash
              else .ok (.Piece (be32 buf) (be32 (buf.drop 4)) (buf.drop 8))
          | 8 =>
            match payload with
            | none => .err .MissingPayload
            | some buf =>
              if buf.length < 12 then .crash
              else .ok (.Cancel (be32 buf) (be32 (buf.drop 4)) (be32 (buf.drop 8)))
          | _ =>
            match payload with
            | none => .err .MissingPayload
            | some buf => if buf.length < 2 then .crash else .ok (.Port (be16 buf))

/-- Size bounds making a message representable with the Rust field types
(`u32` for the numeric fields and the length prefix, `u16` for the
port). -/
def wellFormedMsg : Message → Bool
  | .KeepAlive | .Choke | .Unchoke | .Interested | .NotInterested => true
  | .Have index => index < 2 ^ 32
  | .Bitfield bitfield => 1 + bitfield.length < 2 ^ 32
  | .Request index begin_ length => index < 2 ^ 32 && begin_ < 2 ^ 32 && length < 2 ^ 32
  | .Piece index begin_ block => index < 2 ^ 32 && begin_ < 2 ^ 32 && 9 + block.length < 2 ^ 32
  | .Cancel index begin_ length => index < 2 ^ 32 && begin_ < 2 ^ 32 && length < 2 ^ 32
  | .Port port => port < 2 ^ 16

/-! ## Piece manager (`piece_manager.rs`)

The lock wrappers (`RwLock`, `Mutex`) guard in-memory data; each
operation acquires and releases within one call, so the embedding
threads the plain state.  The disk writes of `save_to_disk` are outside
the state; only their effect on the piece map (`Completed` entries
become `OnDisk`) is modelled, with the `unwrap` on the file result taken
as success. -/

def SAVE_BYTES_THRESHOLD : Nat := 2 ^ 20

/-- `PieceStatus`. -/
inductive PieceStatus where
  | NotStarted
  | InProgress
  | Completed (bytes : List Nat)
  | OnDisk
deriving DecidableEq

/-- `HashMap::get` on the piece map (keys are unique). -/
def hmGet : List (Nat × PieceStatus) → Nat → Option PieceStatus
  | [], _ => none
  | (k, s) :: rest, key => if k = key then some s else hmGet rest key

/-- `HashMap::insert` on the piece map: replace the entry if the key is
present, append otherwise. -/
def hmInsert : List (Nat × PieceStatus) → Nat → PieceStatus → List (Nat × PieceStatus)
  | [], key, s => [(key, s)]
  | (k, t) :: rest, key, s =>
    if k = key then (key, s) :: rest else (k, t) :: hmInsert rest key s

/-- The in-memory state of `PieceManager`. -/
structure PieceManager where
  bitfield : List Nat
  piece_hashes : List (List Nat)
  piece_length : Nat
  torrent_hash : List Nat
  piece_map : List (Nat × PieceStatus)

/-- `is_piece_valid`: compare `Sha1::digest(piece)` with the expected
hash at the index; out-of-range indices are invalid. -/
def isPieceValid (pm : PieceManager) (piece_index : Nat) (piece : List Nat) : Bool :=
  match pm.piece_hashes.get? piece_index with
  | some hash => sha1 piece == hash
  | none => false

/-- `get_bitfield`: a snapshot of the bitfield. -/
def getBitfield (pm : PieceManager) : List Nat := pm.bitfield

/-- `update_bitfield`: set the bit `1 <<< (7 - index % 8)` of byte
`index / 8`.  The Rust indexing `bitfield[byte_index]` panics when the
byte index is out of range; that outcome is `none`. -/
def updateBitfield (pm : PieceManager) (index : Nat) : Option PieceManager :=
  let byte_index := index / 8
  let mask := 1 <<< (7 - index % 8)
  match pm.bitfield.get? byte_index with
  | none => none
  | some b => some { pm with bitfield := pm.bitfield.set byte_index (b ||| mask) }

/-- `should_save`: total bytes of `Completed` entries reach the
threshold, or every entry is `Completed`/`OnDisk`. -/
def shouldSave (pm : PieceManager) : Bool :=
  let bytes_in_ram := (pm.piece_map.map (fun e =>
    match e.2 with
    | .Completed bytes => bytes.length
    | _ => 0)).sum
  let all_pieces_ready := pm.piece_map.all (fun e =>
    match e.2 with
    | .Completed _ => true
    | .OnDisk => true
    | _ => false)
  decide (bytes_in_ram ≥ SAVE_BYTES_THRESHOLD) || all_pieces_ready

/-- The piece-map effect of `save_to_disk`: for each index in
`0 .. piece_count`, a `Completed` entry is written out and re-inserted
as `OnDisk`. -/
def saveToDiskMap : Nat → List (Nat × PieceStatus) → List (Nat × PieceStatus)
  | 0, m => m
  | n + 1, m =>
    let m2 := saveToDiskMap n m
    match hmGet m2 n with
    | some (.Completed _) => hmInsert m2 n .OnDisk
    | _ => m2

/-- `save_to_disk` on the in-memory state (the file writes succeed). -/
def saveToDisk (pm : PieceManager) : PieceManager :=
  { pm with piece_map := saveToDiskMap pm.piece_hashes.length pm.piece_map }

/-- `add_piece`: verify the hash; on match record `Completed`, set the
bitfield bit and possibly flush; on mismatch record `NotStarted` and
return `false`.  `none` is the panic of the unchecked bitfield write. -/
def addPiece (pm : PieceManager) (index : Nat) (bytes : List Nat) :
    Option (PieceManager × Bool) :=
  if isPieceValid pm index bytes then
    let pm1 := { pm with piece_map := hmInsert pm.piece_map index (.Completed bytes) }
    match updateBitfield pm1 index with
    | none => none
    | some pm2 =>
      let pm3 := if shouldSave pm2 then saveToDisk pm2 else pm2
      some (pm3, true)
  else
    some ({ pm with piece_map := hmInsert pm.piece_map index .NotStarted }, false)

/-- `cancel_piece`: `entry(index).and_modify(set NotStarted unless
Completed).or_insert(NotStarted)`. -/
def cancelPiece (pm : PieceManager) (index : Nat) : PieceManager :=
  { pm with piece_map :=
      match hmGet pm.piece_map index with
      | some (.Completed _) => pm.piece_map
      | some _ => hmInsert pm.piece_map index .NotStarted
      | none => hmInsert pm.piece_map index .NotStarted }

/-- The inner bit loop of `get_next_piece` over bit indices 0..7 of one
diff byte, high bit first: a set diff bit whose piece is neither
`InProgress` nor `Completed` is claimed (`InProgress`) and returned. -/
def scanBits (pm : PieceManager) (diff index : Nat) :
    List Nat → Option (PieceManager × Nat)
  | [] => none
  | bit :: bits =>
    let mask := 1 <<< (7 - bit)
    if diff &&& mask ≠ 0 then
      let piece_index := index * 8 + bit
      match hmGet pm.piece_map piece_index with
      | some .InProgress => scanBits pm diff index bits
      | some (.Completed _) => scanBits pm diff index bits
      | _ =>
        some ({ pm with piece_map := hmInsert pm.piece_map piece_index .InProgress },
          piece_index)
    else scanBits pm diff index bits

/-- The outer byte loop of `get_next_piece` over the zipped bitfields
with their running index. -/
def getNextPieceAux (pm : PieceManager) :
    List (Nat × Nat) → Nat → PieceManager × Option Nat
  | [], _ => (pm, none)
  | (mine, theirs) :: rest, index =>
    let diff := (mine ^^^ 255) &&& theirs
    if diff = 0 then getNextPieceAux pm rest (index + 1)
    else
      match scanBits pm diff index [0, 1, 2, 3, 4, 5, 6, 7] with
      | some (pm2, piece_index) => (pm2, some piece_index)
      | none => getNextPieceAux pm rest (index + 1)

/-- `get_next_piece`: scan our bitfield against the peer's. -/
def getNextPiece (pm : PieceManager) (their_bitfield : List Nat) :
    PieceManager × Option Nat :=
  getNextPieceAux pm (pm.bitfield.zip their_bitfield) 0

/-- Bit `index` of a bitfield, read with the byte and mask of the
source: byte `index / 8`, mask `1 <<< (7 - index % 8)`. -/
def bitfieldBit (bf : List Nat) (index : Nat) : Bool :=
  match bf.get? (index / 8) with
  | some b => b &&& (1 <<< (7 - index % 8)) ≠ 0
  | none => false

/-! ## Metadata decoder (`meta_info.rs`) -/

def ANNOUNCE_KEY : List Nat := strBytes "announce"
def INFO_KEY : List Nat := strBytes "info"
def NODES_KEY : List Nat := strBytes "nodes"
def ANNOUNCE_LIST_KEY : List Nat := strBytes "announce-list"
def URL_LIST_KEY : List Nat := strBytes "url-list"
def NAME_KEY : List Nat := strBytes "name"
def PIECE_LENGTH_KEY : List Nat := strBytes "piece length"
def PIECES_KEY : List Nat := strBytes "pieces"
def LENGTH_KEY : List Nat := strBytes "length"
def FILES_KEY : List Nat := strBytes "files"
def PRIVATE_KEY : List Nat := strBytes "private"
def PATH_KEY : List Nat := strBytes "path"
def ERROR_MISSING_VALUE : String := "Map is missing required values"

/-- `FromBencodeTypeErr` (the `BencodeGetErr` payloads never surface
through `get_decode`, which converts them to `None`). -/
inductive FromBencodeTypeErr where
  | MissingValue (s : String)
deriving DecidableEq

/-- `get_decode::<String>`: a byte-string value that is valid UTF-8. -/
def getDecodeString (m : List (List Nat × Bencode)) (key : List Nat) : Option (List Nat) :=
  match mapLookup m key with
  | some (.str s) => if utf8Valid s then some s else none
  | _ => none

/-- `get_decode::<i64>`. -/
def getDecodeI64 (m : List (List Nat × Bencode)) (key : List Nat) : Option Int :=
  match mapLookup m key with
  | some (.int x) => some x
  | _ => none

/-- `get_decode::<Vec<u8>>`: the raw bytes of a byte-string value. -/
def getDecodeBytes (m : List (List Nat × Bencode)) (key : List Nat) : Option (List Nat) :=
  match mapLookup m key with
  | some (.str s) => some s
  | _ => none

/-- `get_decode::<BencodeMap>`. -/
def getDecodeMap (m : List (List Nat × Bencode)) (key : List Nat) :
    Option (List (List Nat × Bencode)) :=
  match mapLookup m key with
  | some (.dict d) => some d
  | _ => none

/-- `TryFrom` of one `String` list element. -/
def stringOfBencode : Bencode → Option (List Nat)
  | .str s => if utf8Valid s then some s else none
  | _ => none

/-- `TryFrom` of one `PathBuf` list element (`PathBuf::from` of the
UTF-8 string). -/
def pathBufOfBencode : Bencode → Option (List Nat)
  | .str s => if utf8Valid s then some s else none
  | _ => none

/-- `TryFrom` of one `BencodeMap` list element. -/
def mapOfBencode : Bencode → Option (List (List Nat × Bencode))
  | .dict d => some d
  | _ => none

/-- Convert every element or fail (`collect::<Result<Vec<_>, _>>`). -/
def traverseOpt {α : Type} (f : Bencode → Option α) : List Bencode → Option (List α)
  | [] => some []
  | b :: bs =>
    match f b with
    | none => none
    | some a =>
      match traverseOpt f bs with
      | none => none
      | some rest => some (a :: rest)

/-- `get_decode::<Vec<String>>`. -/
def getDecodeVecString (m : List (List Nat × Bencode)) (key : List Nat) :
    Option (List (List Nat)) :=
  match mapLookup m key with
  | some (.list xs) => traverseOpt stringOfBencode xs
  | _ => none

/-- `get_decode::<Vec<PathBuf>>`. -/
def getDecodeVecPathBuf (m : List (List Nat × Bencode)) (key : List Nat) :
    Option (List (List Nat)) :=
  match mapLookup m key with
  | some (.list xs) => traverseOpt pathBufOfBencode xs
  | _ => none

/-- `get_decode::<Vec<BencodeMap>>`. -/
def getDecodeVecMap (m : List (List Nat × Bencode)) (key : List Nat) :
    Option (List (List (List Nat × Bencode))) :=
  match mapLookup m key with
  | some (.list xs) => traverseOpt mapOfBencode xs
  | _ => none

/-- `FileInfo` of `meta_info.rs`: one entry of the multi-file layout
(`name`/`path` as UTF-8 bytes). -/
structure FileInfo where
  length : Int
  path : List (List Nat)
deriving DecidableEq

/-- `TorrentInfo` of `meta_info.rs` (`privateFlag` renders the source's
`private` field, which is a reserved word here). -/
structure TorrentInfo where
  name : List Nat
  piece_length : Int
  pieces : List Nat
  length : Option Int
  files : Option (List FileInfo)
  privateFlag : Option Int

/-- `MetaInfo` of `meta_info.rs`, together with the `hash` field that
the rest of the repository reads (`peer_manager.rs`, `torrent.rs`,
`tracker.rs`, and the tests of `piece_manager.rs` all use
`meta_info.hash`); the field is absent from the `meta_info.rs` under
`src/` and is therefore modelled from the spec. -/
structure MetaInfo where
  announce : Option (List Nat)
  info : TorrentInfo
  nodes : Option (List (List Nat))
  announce_list : Option (List (List Nat))
  url_list : Option (List (List Nat))
  hash : List Nat

/-- `FileInfo::is_valid_bencodemap`: requires the `length` and `path`
keys. -/
def fileInfoIsValid (m : List (List Nat × Bencode)) : Bool :=
  mapContains m LENGTH_KEY && mapContains m PATH_KEY

/-- `FileInfo::from_bencodemap`, statement by statement: after the
validity check on `length`/`path`, the code reads the *`name`* key for
the length and the *`piece length`* key for the path (both reported as
missing `"pieces"`). -/
def fileInfoFromBencodemap (m : List (List Nat × Bencode)) :
    Except FromBencodeTypeErr FileInfo :=
  if ¬ fileInfoIsValid m then .error (.MissingValue ERROR_MISSING_VALUE)
  else
    match getDecodeI64 m NAME_KEY with
    | none => .error (.MissingValue "pieces")
    | some length =>
      match getDecodeVecPathBuf m PIECE_LENGTH_KEY with
      | none => .error (.MissingValue "pieces")
      | some path => .ok ⟨length, path⟩

/-- `TorrentInfo::is_valid_bencodemap`: at least one of `length`/`files`
(the keys are ASCII, so the UTF-8 read of each key succeeds), plus
`name`. -/
def torrentInfoIsValid (m : List (List Nat × Bencode)) : Bool :=
  (mapContains m LENGTH_KEY || mapContains m FILES_KEY) && mapContains m NAME_KEY

/-- `TorrentInfo::from_bencodemap`.  The files loop
`while let Some(x) = files_vec.iter().next()` re-creates the iterator
each pass, so it only ever examines the first entry: an error from it
propagates, and a success repeats forever — `none` models that
divergence.  (`print_keys` only writes to stdout.) -/
def torrentInfoFromBencodemap (m : List (List Nat × Bencode)) :
    Option (Except FromBencodeTypeErr TorrentInfo) :=
  if ¬ torrentInfoIsValid m then some (.error (.MissingValue ERROR_MISSING_VALUE))
  else
    match getDecodeString m NAME_KEY with
    | none => some (.error (.MissingValue "name"))
    | some name =>
      match getDecodeI64 m PIECE_LENGTH_KEY with
      | none => some (.error (.MissingValue "piece length"))
      | some piece_length =>
        match getDecodeBytes m PIECES_KEY with
        | none => some (.error (.MissingValue "pieces"))
        | some pieces =>
          let length := getDecodeI64 m LENGTH_KEY
          let files := getDecodeVecMap m FILES_KEY
          let privateFlag := getDecodeI64 m PRIVATE_KEY
          match files with
          | some (x :: _) =>
            match fileInfoFromBencodemap x with
            | .error e => some (.error e)
            | .ok _ => none
          | _ => some (.ok ⟨name, piece_length, pieces, length, none, privateFlag⟩)

/-- `MetaInfo::is_valid_bencodemap`: at least one of the announce-family
keys, plus `info`. -/
def metaInfoIsValid (m : List (List Nat × Bencode)) : Bool :=
  (mapContains m ANNOUNCE_KEY || mapContains m NODES_KEY ||
    mapContains m ANNOUNCE_LIST_KEY || mapContains m URL_LIST_KEY) &&
  mapContains m INFO_KEY

/-- `MetaInfo::from_bencodemap`.  The four optional reads keep the
source's swapped key pairs (`announce` from `announce-list` and
`announce_list` from `announce`).  The `hash` value is modelled from the
spec: the `meta_info.rs` under `src/` computes no hash, while the rest
of the repository reads `meta_info.hash`; per the spec the info-hash is
SHA-1 over the canonical re-encoding of the `info` sub-dictionary
value. -/
def metaInfoFromBencodemap (m : List (List Nat × Bencode)) :
    Option (Except FromBencodeTypeErr MetaInfo) :=
  if ¬ metaInfoIsValid m then some (.error (.MissingValue ERROR_MISSING_VALUE))
  else
    let announce := getDecodeString m ANNOUNCE_LIST_KEY
    let nodes := getDecodeVecString m NODES_KEY
    let announce_list := getDecodeVecString m ANNOUNCE_KEY
    let url_list := getDecodeVecString m URL_LIST_KEY
    match getDecodeMap m INFO_KEY with
    | none => some (.error (.MissingValue "info"))
    | some info =>
      match torrentInfoFromBencodemap info with
      | none => none
      | some (.error e) => some (.error e)
      | some (.ok ti) =>
        some (.ok ⟨announce, ti, nodes, announce_list, url_list,
          sha1 (encodeB (.dict info))⟩)

/-- A concrete single-file info dictionary (sample input for C1). -/
def infoSample : List (List Nat × Bencode) :=
  [(strBytes "length", .int 1), (strBytes "name", .str [97]),
    (strBytes "piece length", .int 1), (strBytes "pieces", .str [])]

/-- A concrete metadata dictionary around `infoSample`. -/
def metaSample : List (List Nat × Bencode) :=
  [(strBytes "announce", .str [116]), (strBytes "info", .dict infoSample)]

/-- The decoded metadata of `metaSample`. -/
def miSample : MetaInfo :=
  ⟨none, ⟨[97], 1, [], some 1, none, none⟩, none, none, none,
    sha1 (encodeB (.dict infoSample))⟩

/-! ## Theorems -/

set_option maxRecDepth 100000

/-- C5: the claim says `cancel_piece` leaves `Completed` and `OnDisk`
statuses unchanged and resets only `InProgress`/absent entries.  The
code resets every status except `Completed`, so an `OnDisk` piece is
downgraded to `NotStarted` — contradicting the in-code comment ("We
only need to update if the piece is in progress") and the spec's
forward-only transition invariant.  The first conjunct evaluates the
code at the failing input; the rest document the surrounding
behaviour. -/
theorem cancelPiece_downgrades_onDisk :
    (cancelPiece ⟨[0], [], 1, [], [(0, .OnDisk)]⟩ 0).piece_map = [(0, .NotStarted)] ∧
    (cancelPiece ⟨[0], [], 1, [], [(0, .Completed [5])]⟩ 0).piece_map =
      [(0, .Completed [5])] ∧
    (cancelPiece ⟨[0], [], 1, [], [(0, .InProgress)]⟩ 0).piece_map = [(0, .NotStarted)] ∧
    (cancelPiece ⟨[0], [], 1, [], []⟩ 0).piece_map = [(0, .NotStarted)] := by
  refine ⟨rfl, rfl, rfl, rfl⟩

/-- C7: the claim says `Message::from_bytes` is total and yields a
truncation error whenever the buffer is shorter than `4 + L`.  The code
reads `bytes[4]` before that truncation check, so the four-byte buffer
`[0,0,0,1]` (declares `L = 1`, carries no id byte) panics; and the
`Have` frame `[0,0,0,3,4,0,0]` with a two-byte payload panics inside
`get_u32` instead of returning an error. -/
theorem fromBytes_panics_on_truncated_input :
    Message.fromBytes [0, 0, 0, 1] = .crash ∧
    Message.fromBytes [0, 0, 0, 3, 4, 0, 0] = .crash := by
  refine ⟨rfl, rfl⟩

/-- C9: the claim says an info dictionary whose `files` entries each
carry `length` and `path` decodes to one record per entry.  The code
validates those keys but then reads the `name` key for the length and
the `piece length` key for the path, so the canonical entry
`{length: 5, path: ["a"]}` fails with `MissingValue("pieces")`, and the
whole info dictionary fails the same way. -/
theorem filesEntry_decode_fails :
    fileInfoFromBencodemap [(LENGTH_KEY, .int 5), (PATH_KEY, .list [.str [97]])] =
      .error (.MissingValue "pieces") ∧
    torrentInfoFromBencodemap
      [(FILES_KEY, .list [.dict [(LENGTH_KEY, .int 5), (PATH_KEY, .list [.str [97]])]]),
        (NAME_KEY, .str [97]),
        (PIECE_LENGTH_KEY, .int 16384),
        (PIECES_KEY, .str (List.replicate 20 0))] =
      some (.error (.MissingValue "pieces")) := by
  refine ⟨rfl, by rfl⟩

/-! ### Decimal digit lemmas -/

/-- Any budget of at least the number itself produces the same digit
list. -/
theorem natDigitsAux_fuel : ∀ f1 : Nat, ∀ n : Nat, n ≤ f1 → ∀ f2, n ≤ f2 →
    natDigitsAux f1 n = natDigitsAux f2 n := by
  intro f1
  induction f1 with
  | zero =>
    intro n hn f2 _
    interval_cases n
    cases f2 <;> rfl
  | succ f ih =>
    intro n hn f2 hn2
    match n, f2 with
    | 0, f2 => cases f2 <;> rfl
    | m + 1, 0 => omega
    | m + 1, g + 1 =>
      simp only [natDigitsAux]
      exact congrArg _ (ih ((m + 1) / 10) (by omega) g (by omega))

theorem natDigitsAux_digits : ∀ fuel n d, d ∈ natDigitsAux fuel n → 48 ≤ d ∧ d ≤ 57 := by
  intro fuel
  induction fuel with
  | zero =>
    intro n d hd
    cases n <;> simp [natDigitsAux] at hd
  | succ f ih =>
    intro n d hd
    cases n with
    | zero => simp [natDigitsAux] at hd
    | succ m =>
      simp only [natDigitsAux, List.mem_cons] at hd
      rcases hd with h | h
      · omega
      · exact ih _ _ h

theorem natDigits_digits : ∀ n d, d ∈ natDigits n → 48 ≤ d ∧ d ≤ 57 := by
  intro n d hd
  unfold natDigits at hd
  split at hd
  · simp at hd
    omega
  · rw [List.mem_reverse] at hd
    exact natDigitsAux_digits _ _ _ hd

theorem natDigits_ne_nil : ∀ n, natDigits n ≠ [] := by
  intro n
  unfold natDigits
  split
  · simp
  · rename_i h
    match n, h with
    | m + 1, _ => simp [natDigitsAux]

/-- Head decomposition of a decimal rendering: nonempty with a digit
first. -/
theorem natDigits_head : ∀ n, ∃ c cs, natDigits n = c :: cs ∧ 48 ≤ c ∧ c ≤ 57 := by
  intro n
  match h : natDigits n with
  | [] => exact absurd h (natDigits_ne_nil n)
  | c :: cs =>
    refine ⟨c, cs, rfl, ?_⟩
    exact natDigits_digits n c (by rw [h]; exact List.mem_cons_self c cs)

theorem digitsVal_append_one (l : List Nat) (d : Nat) (acc : Nat) :
    List.foldl (fun a d => a * 10 + (d - 48)) acc (l ++ [d]) =
      List.foldl (fun a d => a * 10 + (d - 48)) acc l * 10 + (d - 48) := by
  rw [List.foldl_append]
  rfl

theorem digitsVal_natDigitsAux : ∀ fuel n, n ≤ fuel → ∀ acc,
    List.foldl (fun a d => a * 10 + (d - 48)) acc (natDigitsAux fuel n).reverse =
      acc * 10 ^ (natDigitsAux fuel n).length + n := by
  intro fuel
  induction fuel with
  | zero =>
    intro n hn acc
    interval_cases n
    simp [natDigitsAux]
  | succ f ih =>
    intro n hn acc
    cases n with
    | zero => simp [natDigitsAux]
    | succ m =>
      simp only [natDigitsAux, List.reverse_cons, List.length_cons]
      rw [digitsVal_append_one]
      rw [ih ((m + 1) / 10) (by omega) acc]
      have hmod : (m + 1) % 10 + 48 - 48 = (m + 1) % 10 := by omega
      rw [hmod, pow_succ]
      have := Nat.div_add_mod (m + 1) 10
      ring_nf
      omega

theorem digitsVal_natDigits (n : Nat) : digitsVal (natDigits n) = n := by
  unfold natDigits digitsVal
  split
  · simp_all [List.foldl]
  · rw [digitsVal_natDigitsAux n n (le_refl n) 0]
    simp

/-- A decimal rendering never contains the bytes `:` (58), `e` (101),
`-` (45) or `+` (43), being all digits. -/
theorem natDigits_no_specials (n d : Nat) (hd : d ∈ natDigits n) :
    d ≠ 58 ∧ d ≠ 101 ∧ d ≠ 45 ∧ d ≠ 43 ∧ d ≠ 105 := by
  have := natDigits_digits n d hd
  omega

theorem allDigits_natDigits (n : Nat) : allDigits (natDigits n) = true := by
  simp only [allDigits, List.all_eq_true]
  intro d hd
  have := natDigits_digits n d hd
  simp
  omega

/-! ### Parsing round trips -/

/-- Helper: when the head is not the byte `+`, the plus-stripping
conditional keeps the list. -/
theorem stripPlus_no_plus (c : Nat) (cs : List Nat) (h : c ≠ 43) :
    (if (c :: cs).head? = some 43 then (c :: cs).tail else (c :: cs)) = c :: cs := by
  simp [h]

theorem parseUsize_natDigits (n : Nat) (h : n < 2 ^ 64) :
    parseUsize (natDigits n) = some n := by
  obtain ⟨c, cs, hc, hc1, hc2⟩ := natDigits_head n
  unfold parseUsize
  rw [hc, stripPlus_no_plus c cs (by omega), ← hc]
  simp only [allDigits_natDigits, digitsVal_natDigits]
  simp [natDigits_ne_nil n]
  omega

theorem intChars_ne_neg_zero (x : Int) : intChars x ≠ [45, 48] := by
  unfold intChars
  split
  · intro h
    have h2 : natDigits x.natAbs = [48] := by
      injection h with _ h3
    have := digitsVal_natDigits x.natAbs
    rw [h2] at this
    simp [digitsVal] at this
    omega
  · intro h
    obtain ⟨c, cs, hc, hc1, _⟩ := natDigits_head x.natAbs
    rw [hc] at h
    injection h with h1 _
    omega

theorem intChars_allowed (x : Int) (d : Nat) (hd : d ∈ intChars x) :
    d = 45 ∨ (48 ≤ d ∧ d ≤ 57) := by
  unfold intChars at hd
  split at hd
  · simp only [List.mem_cons] at hd
    rcases hd with h | h
    · left; exact h
    · right; exact natDigits_digits _ _ h
  · right; exact natDigits_digits _ _ hd

/-- Helper: reduce `parseI64` on an input whose head is not a sign. -/
theorem parseI64_no_sign (c : Nat) (cs : List Nat) (h45 : c ≠ 45) (h43 : c ≠ 43) :
    parseI64 (c :: cs) =
      (if (c :: cs) ≠ [] && allDigits (c :: cs) && digitsVal (c :: cs) ≤ 2 ^ 63 - 1 then
        some (Int.ofNat (digitsVal (c :: cs)))
      else none) := by
  unfold parseI64
  simp [h45, h43]

/-- Helper: reduce `parseI64` on a minus-signed input. -/
theorem parseI64_minus (cs : List Nat) :
    parseI64 (45 :: cs) =
      (if cs ≠ [] && allDigits cs && digitsVal cs ≤ 2 ^ 63 then
        some (-Int.ofNat (digitsVal cs))
      else none) := by
  unfold parseI64
  simp

theorem parseI64_intChars (x : Int) (h1 : -(2 ^ 63) ≤ x) (h2 : x ≤ 2 ^ 63 - 1) :
    parseI64 (intChars x) = some x := by
  unfold intChars
  split
  · rename_i hneg
    rw [parseI64_minus]
    simp only [allDigits_natDigits, digitsVal_natDigits]
    have hb : x.natAbs ≤ 2 ^ 63 := by omega
    rw [if_pos]
    · simp only [Option.some.injEq, Int.ofNat_eq_natCast]
      omega
    · simp [natDigits_ne_nil]
      omega
  · rename_i hpos
    obtain ⟨c, cs, hc, hc1, hc2⟩ := natDigits_head x.natAbs
    rw [hc, parseI64_no_sign c cs (by omega) (by omega), ← hc]
    simp only [allDigits_natDigits, digitsVal_natDigits]
    have hb : x.natAbs ≤ 2 ^ 63 - 1 := by omega
    rw [if_pos]
    · simp only [Option.some.injEq, Int.ofNat_eq_natCast]
      omega
    · simp [natDigits_ne_nil]
      omega

/-! ### Integer and string readers on encoder output -/

theorem utf8Valid_ascii : ∀ l : List Nat, (∀ b ∈ l, b ≤ 127) → utf8Valid l = true := by
  intro l
  induction l with
  | nil => intro _; rfl
  | cons b rest ih =>
    intro h
    have hb : b ≤ 127 := h b (List.mem_cons_self b rest)
    unfold utf8Valid
    rw [if_pos hb]
    exact ih (fun x hx => h x (List.mem_cons_of_mem b hx))

/-- The loop of `read_integer` over a span of sign, digit and `i` bytes
terminated by `e`: it accumulates the span minus the `i` bytes and
leaves the suffix. -/
theorem readIntegerLoop_span : ∀ body : List Nat,
    (∀ b ∈ body, b = 45 ∨ (48 ≤ b ∧ b ≤ 57) ∨ b = 105) → ∀ rest acc,
    readIntegerLoop (body ++ 101 :: rest) acc =
      .ok (acc ++ body.filter (fun b => b ≠ 105), rest) := by
  intro body
  induction body with
  | nil =>
    intro _ rest acc
    simp [readIntegerLoop]
  | cons b bs ih =>
    intro h rest acc
    have hb := h b (List.mem_cons_self b bs)
    have hbs : ∀ x ∈ bs, x = 45 ∨ (48 ≤ x ∧ x ≤ 57) ∨ x = 105 :=
      fun x hx => h x (List.mem_cons_of_mem b hx)
    rcases hb with hb | hb | hb
    · subst hb
      simp only [List.cons_append, readIntegerLoop, List.append_eq]
      norm_num
      rw [ih hbs rest (acc ++ [45])]
      simp [List.filter]
    · have h45 : b ≠ 45 := by omega
      simp only [List.cons_append, readIntegerLoop, List.append_eq, if_neg h45, if_pos hb]
      rw [ih hbs rest (acc ++ [b])]
      have h105 : b ≠ 105 := by omega
      simp [List.filter, h105]
    · subst hb
      simp only [List.cons_append, readIntegerLoop, List.append_eq]
      norm_num
      rw [ih hbs rest acc]
      simp [List.filter]

/-- The loop of `read_integer` fails at the first byte of the span that
is not a sign, a digit, `i` or the terminator `e`. -/
theorem readIntegerLoop_badByte : ∀ pre : List Nat,
    (∀ b ∈ pre, b = 45 ∨ (48 ≤ b ∧ b ≤ 57) ∨ b = 105) →
    ∀ bad, bad ≠ 45 → ¬(48 ≤ bad ∧ bad ≤ 57) → bad ≠ 105 → bad ≠ 101 → ∀ post acc,
    readIntegerLoop (pre ++ bad :: post) acc =
      .error (.InvalidIntegerBencode ERROR_NON_NUMERIC_CHARACTER) := by
  intro pre
  induction pre with
  | nil =>
    intro _ bad h45 hdig h105 h101 post acc
    simp [readIntegerLoop, h45, hdig, h105, h101]
  | cons b bs ih =>
    intro h bad h45 hdig h105 h101 post acc
    have hb := h b (List.mem_cons_self b bs)
    have hbs : ∀ x ∈ bs, x = 45 ∨ (48 ≤ x ∧ x ≤ 57) ∨ x = 105 :=
      fun x hx => h x (List.mem_cons_of_mem b hx)
    rcases hb with hb | hb | hb
    · subst hb
      simp only [List.cons_append, readIntegerLoop, List.append_eq]
      norm_num
      exact ih hbs bad h45 hdig h105 h101 post (acc ++ [45])
    · have hb45 : b ≠ 45 := by omega
      simp only [List.cons_append, readIntegerLoop, List.append_eq, if_neg hb45, if_pos hb]
      exact ih hbs bad h45 hdig h105 h101 post (acc ++ [b])
    · subst hb
      simp only [List.cons_append, readIntegerLoop, List.append_eq]
      norm_num
      exact ih hbs bad h45 hdig h105 h101 post acc

/-- `read_integer` on the canonical encoding of an in-range integer. -/
theorem readInteger_encode (x : Int) (h1 : -(2 ^ 63) ≤ x) (h2 : x ≤ 2 ^ 63 - 1)
    (rest : List Nat) :
    readInteger (105 :: intChars x ++ 101 :: rest) = .ok (.int x, rest) := by
  unfold readInteger
  have hstep : readIntegerLoop (105 :: intChars x ++ 101 :: rest) [] =
      readIntegerLoop (intChars x ++ 101 :: rest) [] := by
    simp [readIntegerLoop]
  have hallowed : ∀ b ∈ intChars x, b = 45 ∨ (48 ≤ b ∧ b ≤ 57) ∨ b = 105 := by
    intro b hb
    rcases intChars_allowed x b hb with h | h
    · left; exact h
    · right; left; exact h
  have hfilter : (intChars x).filter (fun b => b ≠ 105) = intChars x := by
    apply List.filter_eq_self.mpr
    intro b hb
    rcases intChars_allowed x b hb with h | h <;> simp <;> omega
  rw [hstep, readIntegerLoop_span (intChars x) hallowed rest [], hfilter]
  simp only [List.nil_append, Bind.bind, Except.bind]
  rw [if_neg (intChars_ne_neg_zero x), parseI64_intChars x h1 h2]

/-- The length-prefix scan stops exactly at the separator. -/
theorem takeUntilColon_append (l : List Nat) (hl : ∀ b ∈ l, b ≠ 58) (suffix : List Nat) :
    takeUntilColon (l ++ 58 :: suffix) = l := by
  induction l with
  | nil => simp [takeUntilColon]
  | cons b bs ih =>
    have hb : b ≠ 58 := hl b (List.mem_cons_self b bs)
    simp only [List.cons_append, takeUntilColon, List.append_eq, if_neg hb]
    rw [ih (fun x hx => hl x (List.mem_cons_of_mem b hx))]

/-- `read_string` on the canonical encoding of a byte string whose
length fits `usize`. -/
theorem readString_encode (s : List Nat) (h : s.length < 2 ^ 64) (rest : List Nat) :
    readString (encodeStr s ++ rest) = .ok (.str s, rest) := by
  have hnd : ∀ b ∈ natDigits s.length, b ≠ 58 := by
    intro b hb
    exact (natDigits_no_specials s.length b hb).1
  have htake : takeUntilColon (encodeStr s ++ rest) = natDigits s.length := by
    have he : encodeStr s ++ rest = natDigits s.length ++ 58 :: (s ++ rest) := by
      simp [encodeStr]
    rw [he]
    exact takeUntilColon_append _ hnd (s ++ rest)
  have hdrop : (encodeStr s ++ rest).drop ((natDigits s.length).length + 1) =
      s ++ rest := by
    have h1 : encodeStr s ++ rest = (natDigits s.length ++ [58]) ++ (s ++ rest) := by
      simp [encodeStr]
    have h2 : (natDigits s.length).length + 1 = (natDigits s.length ++ [58]).length := by
      simp
    rw [h1, h2, List.drop_left]
  have hascii : utf8Valid (natDigits s.length) = true := by
    apply utf8Valid_ascii
    intro b hb
    have := natDigits_digits _ _ hb
    omega
  simp only [readString, htake, hdrop]
  rw [if_neg (by simp [hascii])]
  rw [if_neg (by simp [natDigits_ne_nil])]
  rw [parseUsize_natDigits s.length h]
  simp [List.take_left, List.drop_left]

/-! ### Byte order and map lemmas -/

theorem byteLt_irrefl : ∀ l : List Nat, byteLt l l = false := by
  intro l
  induction l with
  | nil => rfl
  | cons a as ih => simp [byteLt, ih]

theorem byteLt_asymm : ∀ a b : List Nat, byteLt a b = true → byteLt b a = false := by
  intro a
  induction a with
  | nil =>
    intro b h
    cases b with
    | nil => rfl
    | cons x xs => rfl
  | cons x xs ih =>
    intro b h
    cases b with
    | nil => simp [byteLt] at h
    | cons y ys =>
      simp only [byteLt] at h ⊢
      by_cases hxy : x < y
      · have hyx : ¬ y < x := by omega
        rw [if_neg hyx, if_pos hxy]
      · rw [if_neg hxy] at h
        by_cases hyx : y < x
        · rw [if_pos hyx] at h
          exact absurd h (by simp)
        · rw [if_neg hyx] at h
          rw [if_neg hyx, if_neg hxy]
          exact ih ys h

theorem byteLt_trans : ∀ a b c : List Nat,
    byteLt a b = true → byteLt b c = true → byteLt a c = true := by
  intro a
  induction a with
  | nil =>
    intro b c hab hbc
    cases b with
    | nil => simp [byteLt] at hab
    | cons y ys =>
      cases c with
      | nil => simp [byteLt] at hbc
      | cons z zs => rfl
  | cons x xs ih =>
    intro b c hab hbc
    cases b with
    | nil => simp [byteLt] at hab
    | cons y ys =>
      cases c with
      | nil => simp [byteLt] at hbc
      | cons z zs =>
        simp only [byteLt] at hab hbc ⊢
        by_cases hxy : x < y
        · by_cases hyz : y < z
          · rw [if_pos (by omega : x < z)]
          · rw [if_neg hyz] at hbc
            by_cases hzy : z < y
            · rw [if_pos hzy] at hbc
              exact absurd hbc (by simp)
            · have : y = z := by omega
              subst this
              rw [if_pos hxy]
        · rw [if_neg hxy] at hab
          by_cases hyx : y < x
          · rw [if_pos hyx] at hab
            exact absurd hab (by simp)
          · have hxy2 : x = y := by omega
            subst hxy2
            rw [if_neg (by omega)] at hab
            by_cases hxz : x < z
            · rw [if_pos hxz]
            · rw [if_neg hxz] at hbc ⊢
              by_cases hzx : z < x
              · rw [if_pos hzx] at hbc
                exact absurd hbc (by simp)
              · rw [if_neg hzx] at hbc ⊢
                exact ih ys zs hab hbc

/-- Inserting a key larger than everything present appends. -/
theorem mapInsert_append (m : List (List Nat × Bencode)) (key : List Nat) (v : Bencode)
    (h : ∀ kv ∈ m, byteLt kv.1 key = true) :
    mapInsert m key v = m ++ [(key, v)] := by
  induction m with
  | nil => rfl
  | cons kw rest ih =>
    obtain ⟨k, w⟩ := kw
    have hk : byteLt k key = true := h (k, w) (List.mem_cons_self _ _)
    have h1 : byteLt key k = false := byteLt_asymm k key hk
    have h2 : key ≠ k := by
      intro he
      subst he
      rw [byteLt_irrefl] at hk
      exact absurd hk (by simp)
    simp only [mapInsert, h1, if_neg h2]
    simp only [Bool.false_eq_true, if_false]
    rw [ih (fun kv hkv => h kv (List.mem_cons_of_mem _ hkv))]
    rfl

theorem mapLookup_insert_self (m : List (List Nat × Bencode)) (key : List Nat)
    (v : Bencode) : mapLookup (mapInsert m key v) key = some v := by
  induction m with
  | nil => simp [mapInsert, mapLookup]
  | cons kw rest ih =>
    obtain ⟨k, w⟩ := kw
    simp only [mapInsert]
    by_cases h1 : byteLt key k = true
    · rw [if_pos h1]
      simp [mapLookup]
    · rw [if_neg h1]
      by_cases h2 : key = k
      · rw [if_pos h2]
        simp [mapLookup]
      · rw [if_neg h2]
        simp only [mapLookup]
        rw [if_neg (fun he => h2 he.symm)]
        exact ih

theorem mapLookup_insert_ne (m : List (List Nat × Bencode)) (key key2 : List Nat)
    (v : Bencode) (hne : key2 ≠ key) :
    mapLookup (mapInsert m key v) key2 = mapLookup m key2 := by
  induction m with
  | nil =>
    simp only [mapInsert, mapLookup]
    rw [if_neg (fun he => hne he.symm)]
  | cons kw rest ih =>
    obtain ⟨k, w⟩ := kw
    simp only [mapInsert]
    by_cases h1 : byteLt key k = true
    · rw [if_pos h1]
      simp only [mapLookup]
      rw [if_neg (fun he => hne he.symm)]
    · rw [if_neg h1]
      by_cases h2 : key = k
      · rw [if_pos h2]
        subst h2
        simp only [mapLookup]
        rw [if_neg (fun he => hne he.symm), if_neg (fun he => hne he.symm)]
      · rw [if_neg h2]
        simp only [mapLookup]
        by_cases h3 : k = key2
        · rw [if_pos h3, if_pos h3]
        · rw [if_neg h3, if_neg h3]
          exact ih

/-- Looking up after folding raw entries into the map: the last
occurrence of the key wins; keys not inserted fall through to the base
map. -/
theorem foldl_insert_lastOcc : ∀ (es : List (List Nat × Bencode))
    (m0 : List (List Nat × Bencode)) (key : List Nat),
    mapLookup (es.foldl (fun acc kv => mapInsert acc kv.1 kv.2) m0) key =
      (match lastOcc es key with
       | some v => some v
       | none => mapLookup m0 key) := by
  intro es
  induction es with
  | nil => intro m0 key; rfl
  | cons kv rest ih =>
    intro m0 key
    obtain ⟨k, v⟩ := kv
    simp only [List.foldl_cons, lastOcc]
    rw [ih]
    match h : lastOcc rest key with
    | some w => rfl
    | none =>
      by_cases hk : k = key
      · subst hk
        rw [mapLookup_insert_self]
        simp
      · rw [mapLookup_insert_ne _ _ _ _ (fun he => hk he.symm)]
        simp [hk]

theorem sortedKeys_tail : ∀ (a : List Nat × Bencode) (l : List (List Nat × Bencode)),
    sortedKeys (a :: l) = true → sortedKeys l = true := by
  intro a l h
  cases l with
  | nil => rfl
  | cons b m =>
    obtain ⟨k, v⟩ := a
    obtain ⟨k2, v2⟩ := b
    simp only [sortedKeys, Bool.and_eq_true] at h
    exact h.2

theorem sortedKeys_head_lt : ∀ (l : List (List Nat × Bencode)) (a : List Nat × Bencode),
    sortedKeys (a :: l) = true → ∀ kv ∈ l, byteLt a.1 kv.1 = true := by
  intro l
  induction l with
  | nil => intro a _ kv hkv; simp at hkv
  | cons b m ih =>
    intro a h kv hkv
    obtain ⟨k, v⟩ := a
    obtain ⟨k2, v2⟩ := b
    simp only [sortedKeys, Bool.and_eq_true] at h
    obtain ⟨h1, h2⟩ := h
    rcases List.mem_cons.mp hkv with he | hm
    · subst he
      exact h1
    · exact byteLt_trans _ _ _ h1 (ih (k2, v2) h2 kv hm)

/-- Folding the entries of a sorted map into an empty map rebuilds the
same association list. -/
theorem foldl_insert_sorted_aux : ∀ (es acc : List (List Nat × Bencode)),
    (∀ kv ∈ acc, ∀ kv2 ∈ es, byteLt kv.1 kv2.1 = true) → sortedKeys es = true →
    es.foldl (fun acc kv => mapInsert acc kv.1 kv.2) acc = acc ++ es := by
  intro es
  induction es with
  | nil => intro acc _ _; simp
  | cons kv rest ih =>
    intro acc hlt hs
    obtain ⟨k, v⟩ := kv
    simp only [List.foldl_cons]
    rw [mapInsert_append acc k v
      (fun kw hkw => hlt kw hkw (k, v) (List.mem_cons_self _ _))]
    rw [ih (acc ++ [(k, v)]) ?_ (sortedKeys_tail _ _ hs)]
    · simp
    · intro kw hkw kv2 hkv2
      rcases List.mem_append.mp hkw with hin | hone
      · exact hlt kw hin kv2 (List.mem_cons_of_mem _ hkv2)
      · have : kw = (k, v) := by simpa using hone
        subst this
        exact sortedKeys_head_lt rest (k, v) hs kv2 hkv2

theorem foldl_insert_sorted (es : List (List Nat × Bencode)) (hs : sortedKeys es = true) :
    es.foldl (fun acc kv => mapInsert acc kv.1 kv.2) [] = es := by
  have := foldl_insert_sorted_aux es [] (by intro kv hkv; simp at hkv) hs
  simpa using this

/-! ### The decoder on encoder output -/

/-- Every encoding starts with a dispatchable byte: `i`, `l`, `d` or a
digit. -/
theorem encodeB_head : ∀ v, ∃ c cs, encodeB v = c :: cs ∧
    (c = 105 ∨ c = 108 ∨ c = 100 ∨ (48 ≤ c ∧ c ≤ 57)) := by
  intro v
  cases v with
  | int x => exact ⟨105, _, rfl, Or.inl rfl⟩
  | str s =>
    obtain ⟨c, cs, hc, h1, h2⟩ := natDigits_head s.length
    refine ⟨c, cs ++ 58 :: s, ?_, Or.inr (Or.inr (Or.inr ⟨h1, h2⟩))⟩
    simp [encodeB, encodeStr, hc]
  | list xs => exact ⟨108, _, rfl, Or.inr (Or.inl rfl)⟩
  | dict es => exact ⟨100, _, rfl, Or.inr (Or.inr (Or.inl rfl))⟩

theorem encodeB_length_pos (v : Bencode) : 1 ≤ (encodeB v).length := by
  obtain ⟨c, cs, hc, _⟩ := encodeB_head v
  simp [hc]

theorem fuelNeed_pos (v : Bencode) : 1 ≤ fuelNeed v := by
  cases v <;> simp [fuelNeed]

theorem fuelNeedItems_pos (xs : List Bencode) : 1 ≤ fuelNeedItems xs := by
  cases xs <;> simp [fuelNeedItems]

theorem fuelNeedEntries_pos (es : List (List Nat × Bencode)) :
    1 ≤ fuelNeedEntries es := by
  match es with
  | [] => simp [fuelNeedEntries]
  | (k, v) :: rest => simp [fuelNeedEntries]

theorem fuelNeedItems_le (xs : List Bencode)
    (h : ∀ b ∈ xs, fuelNeed b ≤ (encodeB b).length) :
    fuelNeedItems xs ≤ (encodeItems xs).length + 1 := by
  induction xs with
  | nil => simp [fuelNeedItems, encodeItems]
  | cons x rest ih =>
    have hx := h x (List.mem_cons_self _ _)
    have hr := ih (fun b hb => h b (List.mem_cons_of_mem _ hb))
    have hp := encodeB_length_pos x
    simp only [fuelNeedItems, encodeItems, List.length_append]
    omega

theorem fuelNeedEntries_le (es : List (List Nat × Bencode))
    (h : ∀ kv ∈ es, fuelNeed kv.2 ≤ (encodeB kv.2).length) :
    fuelNeedEntries es ≤ (encodeEntries es).length + 1 := by
  induction es with
  | nil => simp [fuelNeedEntries, encodeEntries]
  | cons kv rest ih =>
    obtain ⟨k, v⟩ := kv
    have hx := h (k, v) (List.mem_cons_self _ _)
    have hr := ih (fun b hb => h b (List.mem_cons_of_mem _ hb))
    have hp := encodeB_length_pos v
    have hs : 1 ≤ (encodeStr k).length := by
      obtain ⟨c, cs, hc, _, _⟩ := natDigits_head k.length
      simp [encodeStr, hc]
    simp only [fuelNeedEntries, encodeEntries, List.length_append]
    simp only [fuelNeed] at hx ⊢
    omega

/-- The decoder budget of a value is covered by the length of its
encoding. -/
theorem fuelNeed_le : ∀ v, fuelNeed v ≤ (encodeB v).length := by
  apply bencodeStrongInd (fun v => fuelNeed v ≤ (encodeB v).length)
  · intro x
    simp [fuelNeed, encodeB, encodeB_length_pos]
  · intro s
    simp [fuelNeed, encodeB, encodeB_length_pos]
    have := encodeB_length_pos (.str s)
    simpa [encodeB] using this
  · intro xs ih
    have := fuelNeedItems_le xs ih
    simp only [fuelNeed, encodeB, List.length_cons, List.length_append]
    simp only [List.length_cons, List.length_nil] at this ⊢
    omega
  · intro es ih
    have := fuelNeedEntries_le es ih
    simp only [fuelNeed, encodeB, List.length_cons, List.length_append]
    omega

theorem encodeStr_head (s : List Nat) :
    ∃ c cs, encodeStr s = c :: cs ∧ 48 ≤ c ∧ c ≤ 57 := by
  obtain ⟨c, cs, hc, h1, h2⟩ := natDigits_head s.length
  exact ⟨c, cs ++ 58 :: s, by simp [encodeStr, hc], h1, h2⟩

/-- One step of the list loop past a non-terminator byte whose value
read succeeds. -/
theorem readListItems_step (g c : Nat) (l : List Nat) (acc : List Bencode)
    (hc : c ≠ 101) (v : Bencode) (r2 : List Nat)
    (hv : readValueF g (c :: l) = .ok (v, r2)) :
    readListItems (g + 1) (c :: l) acc = readListItems g r2 (acc ++ [v]) := by
  simp only [readListItems, if_neg hc, hv]

theorem readListItems_done (g : Nat) (rest : List Nat) (acc : List Bencode) :
    readListItems (g + 1) (101 :: rest) acc = .ok (.list acc, rest) := by
  simp [readListItems]

/-- One step of the dictionary loop past a digit-headed key whose key
and value reads succeed. -/
theorem readDictEntries_step (g c : Nat) (l : List Nat)
    (acc : List (List Nat × Bencode)) (hd : 48 ≤ c ∧ c ≤ 57) (k : List Nat)
    (r1 : List Nat) (hk : readValueF g (c :: l) = .ok (.str k, r1))
    (v : Bencode) (r2 : List Nat) (hv : readValueF g r1 = .ok (v, r2)) :
    readDictEntries (g + 1) (c :: l) acc = readDictEntries g r2 (mapInsert acc k v) := by
  have hc101 : c ≠ 101 := by omega
  simp only [readDictEntries, if_neg hc101, if_pos hd, hk, hv]

theorem readDictEntries_done (g : Nat) (rest : List Nat)
    (acc : List (List Nat × Bencode)) :
    readDictEntries (g + 1) (101 :: rest) acc = .ok (.dict acc, rest) := by
  simp [readDictEntries]

/-- `read_value` on the encoding of a byte string needs only one unit of
budget. -/
theorem readValueF_str (s : List Nat) (h : s.length < 2 ^ 64) (r : List Nat)
    (g : Nat) (hg : 1 ≤ g) :
    readValueF g (encodeStr s ++ r) = .ok (.str s, r) := by
  obtain ⟨g2, rfl⟩ : ∃ g2, g = g2 + 1 := ⟨g - 1, by omega⟩
  obtain ⟨c, cs, hc, h1, h2⟩ := encodeStr_head s
  have he : encodeStr s ++ r = c :: (cs ++ r) := by simp [hc]
  rw [he]
  simp only [readValueF]
  rw [if_neg (by omega : ¬ c = 105), if_neg (by omega : ¬ c = 108),
    if_neg (by omega : ¬ c = 100), if_pos ⟨h1, h2⟩]
  rw [← he]
  exact readString_encode s h r

/-- The list loop of the decoder consumes the encodings of the elements
up to the closing `e`, given that each element re-reads correctly. -/
theorem readListItems_encode : ∀ xs : List Bencode,
    (∀ b ∈ xs, validValue b = true → ∀ r fuel, fuelNeed b ≤ fuel →
      readValueF fuel (encodeB b ++ r) = .ok (b, r)) →
    validItems xs = true →
    ∀ acc rest fuel, fuelNeedItems xs ≤ fuel →
    readListItems fuel (encodeItems xs ++ 101 :: rest) acc =
      .ok (.list (acc ++ xs), rest) := by
  intro xs
  induction xs with
  | nil =>
    intro _ _ acc rest fuel hf
    simp only [fuelNeedItems] at hf
    obtain ⟨g, rfl⟩ : ∃ g, fuel = g + 1 := ⟨fuel - 1, by omega⟩
    simp only [encodeItems, List.nil_append]
    rw [readListItems_done]
    simp
  | cons x xs2 ih2 =>
    intro ihm hv acc rest fuel hf
    simp only [fuelNeedItems] at hf
    obtain ⟨g, rfl⟩ : ∃ g, fuel = g + 1 := ⟨fuel - 1, by omega⟩
    have hgx : fuelNeed x ≤ g := by omega
    have hgr : fuelNeedItems xs2 ≤ g := by omega
    have hval : validValue x = true ∧ validItems xs2 = true := by
      simpa [validItems, Bool.and_eq_true] using hv
    obtain ⟨c, cs, hc, hopt⟩ := encodeB_head x
    have hlist : encodeItems (x :: xs2) ++ 101 :: rest =
        c :: (cs ++ (encodeItems xs2 ++ 101 :: rest)) := by
      simp [encodeItems, hc]
    rw [hlist]
    have hc101 : c ≠ 101 := by rcases hopt with h | h | h | h <;> omega
    have hback : (c :: (cs ++ (encodeItems xs2 ++ 101 :: rest)) : List Nat) =
        encodeB x ++ (encodeItems xs2 ++ 101 :: rest) := by simp [hc]
    have hx : readValueF g (c :: (cs ++ (encodeItems xs2 ++ 101 :: rest))) =
        .ok (x, encodeItems xs2 ++ 101 :: rest) := by
      rw [hback]
      exact ihm x (List.mem_cons_self _ _) hval.1 _ g hgx
    rw [readListItems_step g c _ acc hc101 x _ hx]
    rw [ih2 (fun b hb => ihm b (List.mem_cons_of_mem _ hb)) hval.2 (acc ++ [x]) rest g hgr]
    simp

/-- The dictionary loop of the decoder consumes the encodings of the
entries up to the closing `e`, folding each into the map. -/
theorem readDictEntries_encode : ∀ es : List (List Nat × Bencode),
    (∀ kv ∈ es, validValue kv.2 = true → ∀ r fuel, fuelNeed kv.2 ≤ fuel →
      readValueF fuel (encodeB kv.2 ++ r) = .ok (kv.2, r)) →
    validEntries es = true →
    ∀ acc rest fuel, fuelNeedEntries es ≤ fuel →
    readDictEntries fuel (encodeEntries es ++ 101 :: rest) acc =
      .ok (.dict (es.foldl (fun a kv => mapInsert a kv.1 kv.2) acc), rest) := by
  intro es
  induction es with
  | nil =>
    intro _ _ acc rest fuel hf
    simp only [fuelNeedEntries] at hf
    obtain ⟨g, rfl⟩ : ∃ g, fuel = g + 1 := ⟨fuel - 1, by omega⟩
    simp only [encodeEntries, List.nil_append]
    rw [readDictEntries_done]
    simp
  | cons kv es2 ih2 =>
    intro ihm hv acc rest fuel hf
    obtain ⟨k, v⟩ := kv
    simp only [fuelNeedEntries] at hf
    obtain ⟨g, rfl⟩ : ∃ g, fuel = g + 1 := ⟨fuel - 1, by omega⟩
    have hgx : fuelNeed v ≤ g := by omega
    have hgr : fuelNeedEntries es2 ≤ g := by omega
    have hg1 : 1 ≤ g := le_trans (fuelNeed_pos v) hgx
    have hval : (k.length < 2 ^ 64 ∧ validValue v = true) ∧ validEntries es2 = true := by
      simpa [validEntries, Bool.and_eq_true] using hv
    obtain ⟨c, cs, hc, h1, h2⟩ := encodeStr_head k
    have hentry : encodeEntries ((k, v) :: es2) ++ 101 :: rest =
        c :: (cs ++ (encodeB v ++ (encodeEntries es2 ++ 101 :: rest))) := by
      simp [encodeEntries, hc]
    rw [hentry]
    have hkey : readValueF g
        (c :: (cs ++ (encodeB v ++ (encodeEntries es2 ++ 101 :: rest)))) =
        .ok (.str k, encodeB v ++ (encodeEntries es2 ++ 101 :: rest)) := by
      have hb : (c :: (cs ++ (encodeB v ++ (encodeEntries es2 ++ 101 :: rest))) :
          List Nat) = encodeStr k ++ (encodeB v ++ (encodeEntries es2 ++ 101 :: rest)) := by
        simp [hc]
      rw [hb]
      exact readValueF_str k hval.1.1 _ g hg1
    have hvv : readValueF g (encodeB v ++ (encodeEntries es2 ++ 101 :: rest)) =
        .ok (v, encodeEntries es2 ++ 101 :: rest) :=
      ihm (k, v) (List.mem_cons_self _ _) hval.1.2 _ g hgx
    rw [readDictEntries_step g c _ acc ⟨h1, h2⟩ k _ hkey v _ hvv]
    rw [ih2 (fun b hb => ihm b (List.mem_cons_of_mem _ hb)) hval.2
      (mapInsert acc k v) rest g hgr]
    simp

/-- The decoder re-reads the encoding of any representable value,
leaving the suffix intact (fuelled version of the round trip). -/
theorem readValueF_encode : ∀ v, validValue v = true → ∀ rest fuel,
    fuelNeed v ≤ fuel → readValueF fuel (encodeB v ++ rest) = .ok (v, rest) := by
  apply bencodeStrongInd (fun v => validValue v = true → ∀ rest fuel,
    fuelNeed v ≤ fuel → readValueF fuel (encodeB v ++ rest) = .ok (v, rest))
  · intro x hv rest fuel hf
    simp only [fuelNeed] at hf
    obtain ⟨g, rfl⟩ : ∃ g, fuel = g + 1 := ⟨fuel - 1, by omega⟩
    have he : encodeB (.int x) ++ rest = 105 :: (intChars x ++ 101 :: rest) := by
      simp [encodeB]
    rw [he]
    simp only [readValueF, if_true]
    have hrange : -(2 ^ 63) ≤ x ∧ x ≤ 2 ^ 63 - 1 := by
      simpa [validValue, Bool.and_eq_true, decide_eq_true_eq] using hv
    exact readInteger_encode x hrange.1 hrange.2 rest
  · intro s hv rest fuel hf
    simp only [fuelNeed] at hf
    have hlen : s.length < 2 ^ 64 := by
      simpa [validValue, decide_eq_true_eq] using hv
    have : encodeB (.str s) = encodeStr s := rfl
    rw [this]
    exact readValueF_str s hlen rest fuel hf
  · intro xs ihm hv rest fuel hf
    simp only [fuelNeed] at hf
    obtain ⟨g, rfl⟩ : ∃ g, fuel = g + 1 := ⟨fuel - 1, by omega⟩
    have hvi : validItems xs = true := by simpa [validValue] using hv
    have he : encodeB (.list xs) ++ rest = 108 :: (encodeItems xs ++ 101 :: rest) := by
      simp [encodeB]
    rw [he]
    simp only [readValueF, if_true]
    have hitems : ∀ b ∈ xs, validValue b = true → ∀ r fuel2, fuelNeed b ≤ fuel2 →
        readValueF fuel2 (encodeB b ++ r) = .ok (b, r) := fun b hb => ihm b hb
    rw [readListItems_encode xs hitems hvi [] rest g (by omega)]
    simp
  · intro es ihm hv rest fuel hf
    simp only [fuelNeed] at hf
    obtain ⟨g, rfl⟩ : ∃ g, fuel = g + 1 := ⟨fuel - 1, by omega⟩
    have hvs : sortedKeys es = true ∧ validEntries es = true := by
      simpa [validValue, Bool.and_eq_true] using hv
    have he : encodeB (.dict es) ++ rest = 100 :: (encodeEntries es ++ 101 :: rest) := by
      simp [encodeB]
    rw [he]
    simp only [readValueF, if_true]
    have hentries : ∀ kv ∈ es, validValue kv.2 = true → ∀ r fuel2,
        fuelNeed kv.2 ≤ fuel2 → readValueF fuel2 (encodeB kv.2 ++ r) = .ok (kv.2, r) :=
      fun kv hkv => ihm kv hkv
    rw [readDictEntries_encode es hentries hvs.2 [] rest g (by omega)]
    rw [foldl_insert_sorted es hvs.1]
    norm_num

/-- C2: for every bencode value representable by the program whose
dictionaries (at every nesting level) carry their keys in sorted byte
order — the `BTreeMap` invariant, expressed by `validValue` together
with the `i64`/`usize` ranges of the Rust field types — decoding the
bytes produced by `encode` succeeds and yields exactly the single value
back: `decode_to_vec (encode v) = [v]`. -/
theorem decode_encode_id (v : Bencode) (hv : validValue v = true) :
    decodeToVec (encodeB v) = .ok [v] := by
  obtain ⟨c, cs, hc, _⟩ := encodeB_head v
  unfold decodeToVec
  rw [hc]
  have hr : readValueF (cs.length + 1) (c :: cs) = .ok (v, []) := by
    have h0 := readValueF_encode v hv [] (encodeB v).length (fuelNeed_le v)
    rw [hc] at h0
    simpa using h0
  simp [decodeLoop, hr]

/-- Witness for C2 at a concrete nested value. -/
theorem decode_encode_id_witness :
    validValue (.dict [([97], .int 1), ([98], .list [.str [0, 1]])]) = true ∧
    decodeToVec (encodeB (.dict [([97], .int 1), ([98], .list [.str [0, 1]])])) =
      .ok [.dict [([97], .int 1), ([98], .list [.str [0, 1]])]] :=
  ⟨by decide, decode_encode_id _ (by decide)⟩

theorem validEntries_of (es : List (List Nat × Bencode))
    (h : ∀ kv ∈ es, validValue kv.2 = true ∧ kv.1.length < 2 ^ 64) :
    validEntries es = true := by
  induction es with
  | nil => rfl
  | cons kv rest ih =>
    obtain ⟨k, v⟩ := kv
    have h1 := h (k, v) (List.mem_cons_self _ _)
    simp only [validEntries, Bool.and_eq_true, decide_eq_true_eq]
    exact ⟨⟨h1.2, h1.1⟩, ih (fun kv hkv => h kv (List.mem_cons_of_mem _ hkv))⟩

theorem lastOcc_isSome (es : List (List Nat × Bencode)) (key : List Nat)
    (h : key ∈ es.map Prod.fst) : (lastOcc es key).isSome = true := by
  induction es with
  | nil => simp at h
  | cons kv rest ih =>
    obtain ⟨k, v⟩ := kv
    simp only [List.map_cons, List.mem_cons] at h
    simp only [lastOcc]
    match hr : lastOcc rest key with
    | some w => rfl
    | none =>
      rcases h with he | hm
      · simp [he.symm]
      · have := ih hm
        rw [hr] at this
        simp at this

/-- C10: decoding a dictionary input whose raw entry sequence carries
the same key more than once succeeds — `read_dictionary` simply calls
`BTreeMap::insert` per pair — and the resulting map holds the value of
the *last* occurrence, earlier ones being overwritten.  The entry
sequence is arbitrary: unsorted, with arbitrary keys and representable
values. -/
theorem decode_dup_keys_last_wins (es : List (List Nat × Bencode)) (key : List Nat)
    (hvals : ∀ kv ∈ es, validValue kv.2 = true ∧ kv.1.length < 2 ^ 64)
    (hdup : 2 ≤ ((es.map Prod.fst).count key)) :
    ∃ m, decodeToVec (100 :: (encodeEntries es ++ [101])) = .ok [.dict m] ∧
      mapLookup m key = lastOcc es key ∧ (lastOcc es key).isSome = true := by
  have hve : validEntries es = true := validEntries_of es hvals
  have hihm : ∀ kv ∈ es, validValue kv.2 = true → ∀ r fuel2,
      fuelNeed kv.2 ≤ fuel2 → readValueF fuel2 (encodeB kv.2 ++ r) = .ok (kv.2, r) :=
    fun kv _ hv2 r fuel2 hf2 => readValueF_encode kv.2 hv2 r fuel2 hf2
  have hfuel : fuelNeedEntries es ≤ (encodeEntries es).length + 1 :=
    fuelNeedEntries_le es (fun kv _ => fuelNeed_le kv.2)
  have hloop := readDictEntries_encode es hihm hve [] []
    ((encodeEntries es).length + 1) hfuel
  have hstep : readValueF ((encodeEntries es ++ [101]).length + 1)
      (100 :: (encodeEntries es ++ [101])) =
      .ok (.dict (es.foldl (fun a kv => mapInsert a kv.1 kv.2) []), []) := by
    simp only [readValueF, if_true]
    norm_num
    exact hloop
  refine ⟨es.foldl (fun a kv => mapInsert a kv.1 kv.2) [], ?_, ?_, ?_⟩
  · unfold decodeToVec
    simp only [List.length_cons, decodeLoop, hstep]
    simp [decodeLoop]
  · rw [foldl_insert_lastOcc es [] key]
    match h : lastOcc es key with
    | some w => rfl
    | none =>
      have hmem : key ∈ es.map Prod.fst := by
        have : 0 < (es.map Prod.fst).count key := by omega
        exact List.count_pos_iff.mp this
      have := lastOcc_isSome es key hmem
      rw [h] at this
      simp at this
  · apply lastOcc_isSome
    have : 0 < (es.map Prod.fst).count key := by omega
    exact List.count_pos_iff.mp this

/-- Witness for C10: the key `"a"` appears twice; the decoded dictionary
holds the second value. -/
theorem decode_dup_keys_last_wins_witness :
    (∀ kv ∈ [(([97] : List Nat), Bencode.int 1), ([97], Bencode.int 2)],
      validValue kv.2 = true ∧ kv.1.length < 2 ^ 64) ∧
    2 ≤ (([(([97] : List Nat), Bencode.int 1), ([97], Bencode.int 2)].map
      Prod.fst).count [97]) ∧
    ∃ m, decodeToVec (100 :: (encodeEntries
        [(([97] : List Nat), Bencode.int 1), ([97], Bencode.int 2)] ++ [101])) =
        .ok [.dict m] ∧
      mapLookup m [97] = lastOcc [(([97] : List Nat), Bencode.int 1),
        ([97], Bencode.int 2)] [97] ∧
      (lastOcc [(([97] : List Nat), Bencode.int 1), ([97], Bencode.int 2)]
        [97]).isSome = true :=
  ⟨by decide, by decide,
    decode_dup_keys_last_wins _ [97] (by decide) (by decide)⟩

/-- C8 (amended): integer decoding reads the span after the opening `i`
up to the first `e`, *skipping any further `i` bytes*; every other byte
of the span must be `-` or a decimal digit, else the decode fails with
the non-numeric error; the accumulated characters are rejected when they
are the literal `-0` and otherwise go through Rust's `i64` parser
(`parseI64`: an optional leading sign, then at least one decimal digit,
failing outside `[-2^63, 2^63 - 1]` — so `-` without digits and
out-of-range values are decode errors).  The original claim's "accepts
exactly the form `i` `[-]` digits `e`" fails only because interior `i`
bytes are silently skipped (see the counterexample). -/
theorem readInteger_characterization :
    (∀ body rest, (∀ b ∈ body, b = 45 ∨ (48 ≤ b ∧ b ≤ 57) ∨ b = 105) →
      readInteger (105 :: (body ++ 101 :: rest)) =
        (if body.filter (fun b => b ≠ 105) = [45, 48] then
          .error (.InvalidIntegerBencode ERROR_NEGATIVE_ZERO)
        else
          match parseI64 (body.filter (fun b => b ≠ 105)) with
          | some v => .ok (.int v, rest)
          | none => .error (.InvalidIntegerBencode ERROR_INVALID_INTEGER))) ∧
    (∀ pre bad post, (∀ b ∈ pre, b = 45 ∨ (48 ≤ b ∧ b ≤ 57) ∨ b = 105) →
      bad ≠ 45 → ¬(48 ≤ bad ∧ bad ≤ 57) → bad ≠ 105 → bad ≠ 101 →
      readInteger (105 :: (pre ++ bad :: post)) =
        .error (.InvalidIntegerBencode ERROR_NON_NUMERIC_CHARACTER)) := by
  constructor
  · intro body rest hb
    unfold readInteger
    have hstep : readIntegerLoop (105 :: (body ++ 101 :: rest)) [] =
        readIntegerLoop (body ++ 101 :: rest) [] := by
      simp [readIntegerLoop]
    rw [hstep, readIntegerLoop_span body hb rest []]
    simp only [List.nil_append, Bind.bind, Except.bind]
  · intro pre bad post hpre h45 hdig h105 h101
    unfold readInteger
    have hstep : readIntegerLoop (105 :: (pre ++ bad :: post)) [] =
        readIntegerLoop (pre ++ bad :: post) [] := by
      simp [readIntegerLoop]
    rw [hstep, readIntegerLoop_badByte pre hpre bad h45 hdig h105 h101 post []]
    rfl

/-- Witness for C8 at concrete spans: `i45e` parses to 45; `i4xe` fails
on the non-numeric byte `x`. -/
theorem readInteger_characterization_witness :
    readInteger [105, 52, 53, 101] = .ok (.int 45, []) ∧
    readInteger [105, 52, 120, 101] =
      .error (.InvalidIntegerBencode ERROR_NON_NUMERIC_CHARACTER) := by
  constructor
  · have h := readInteger_characterization.1 [52, 53] [] (by decide)
    exact h.trans (by rfl)
  · exact readInteger_characterization.2 [52] 120 [101] (by decide) (by decide)
      (by decide) (by decide) (by decide)

/-- C8 counterexample: the claim as frozen says the decoder accepts
*exactly* `i`, optional `-`, digits, `e`, failing on any other byte in
the span; but the loop's `INT_PREFIX => continue` arm silently skips
interior `i` bytes, so `"i1i2e"` — whose span holds the non-digit byte
`i` — decodes successfully to the integer 12. -/
theorem readInteger_accepts_interior_i :
    readInteger [105, 49, 105, 50, 101] = .ok (.int 12, []) ∧
    decodeToVec [105, 49, 105, 50, 101] = .ok [.int 12] := by
  exact ⟨by rfl, by rfl⟩

/-! ### Piece-manager lemmas -/

theorem hmGet_insert_self : ∀ (m : List (Nat × PieceStatus)) (k : Nat) (s : PieceStatus),
    hmGet (hmInsert m k s) k = some s := by
  intro m k s
  induction m with
  | nil => simp [hmInsert, hmGet]
  | cons kv rest ih =>
    obtain ⟨k2, t⟩ := kv
    simp only [hmInsert]
    by_cases h : k2 = k
    · rw [if_pos h]
      simp [hmGet]
    · rw [if_neg h]
      simp only [hmGet]
      rw [if_neg h]
      exact ih

theorem and_shift_ne_zero (X t : Nat) : (X &&& 1 <<< t ≠ 0) ↔ X.testBit t = true := by
  rw [Nat.one_shiftLeft, Nat.and_two_pow]
  cases h : X.testBit t <;> simp [h]

/-- C3: for an index within range of the expected-hash vector,
`add_piece(i, b)` returns `false` exactly when `SHA1(b)` differs from
`expected_hashes[i]`, and whenever it returns `false` the status of `i`
is `NotStarted` afterwards. -/
theorem addPiece_false_iff (pm : PieceManager) (i : Nat) (b : List Nat)
    (h : i < pm.piece_hashes.length) :
    ((∃ pm2, addPiece pm i b = some (pm2, false)) ↔
      sha1 b ≠ pm.piece_hashes[i]) ∧
    (∀ pm2, addPiece pm i b = some (pm2, false) →
      hmGet pm2.piece_map i = some .NotStarted) := by
  have hvalid : isPieceValid pm i b = (sha1 b == pm.piece_hashes[i]) := by
    unfold isPieceValid
    rw [List.get?_eq_getElem?, List.getElem?_eq_getElem h]
  by_cases hv : sha1 b = pm.piece_hashes[i]
  · have hvt : isPieceValid pm i b = true := by simp [hvalid, hv]
    have hfalse : ∀ pm2, addPiece pm i b ≠ some (pm2, false) := by
      intro pm2 hc
      unfold addPiece at hc
      rw [hvt] at hc
      simp only [if_true] at hc
      cases hub : updateBitfield
          {pm with piece_map := hmInsert pm.piece_map i (.Completed b)} i with
      | none =>
        rw [hub] at hc
        exact absurd hc (by simp)
      | some pm3 =>
        rw [hub] at hc
        simp at hc
    constructor
    · constructor
      · intro hex
        obtain ⟨pm2, hpm2⟩ := hex
        exact absurd hpm2 (hfalse pm2)
      · intro hne
        exact absurd hv hne
    · intro pm2 hpm2
      exact absurd hpm2 (hfalse pm2)
  · have hvf : isPieceValid pm i b = false := by simp [hvalid, hv]
    have heq : addPiece pm i b =
        some ({pm with piece_map := hmInsert pm.piece_map i .NotStarted}, false) := by
      unfold addPiece
      rw [hvf]
      simp
    constructor
    · constructor
      · intro _
        exact hv
      · intro _
        exact ⟨_, heq⟩
    · intro pm2 hpm2
      rw [heq] at hpm2
      simp only [Option.some.injEq, Prod.mk.injEq] at hpm2
      obtain ⟨h1, _⟩ := hpm2
      rw [← h1]
      exact hmGet_insert_self pm.piece_map i .NotStarted

/-- Witness for C3. -/
theorem addPiece_false_iff_witness :
    (0 < ([[0]] : List (List Nat)).length) ∧
    (((∃ pm2, addPiece ⟨[0], [[0]], 1, [], []⟩ 0 [] = some (pm2, false)) ↔
      sha1 [] ≠ ([[0]] : List (List Nat))[0]) ∧
    (∀ pm2, addPiece ⟨[0], [[0]], 1, [], []⟩ 0 [] = some (pm2, false) →
      hmGet pm2.piece_map 0 = some .NotStarted)) :=
  ⟨by decide, addPiece_false_iff ⟨[0], [[0]], 1, [], []⟩ 0 [] (by decide)⟩

/-- Shape of a successful `add_piece`: the bit write happened on the
byte `i / 8` with mask `1 <<< (7 - i % 8)`, and nothing later changes
the bitfield. -/
theorem addPiece_true_shape (pm : PieceManager) (i : Nat) (b : List Nat)
    (pm2 : PieceManager) (ha : addPiece pm i b = some (pm2, true)) :
    ∃ b0, pm.bitfield.get? (i / 8) = some b0 ∧
      pm2.bitfield = pm.bitfield.set (i / 8) (b0 ||| 1 <<< (7 - i % 8)) := by
  unfold addPiece at ha
  by_cases hv : isPieceValid pm i b = true
  · rw [hv] at ha
    simp only [if_true] at ha
    cases hub : updateBitfield
        {pm with piece_map := hmInsert pm.piece_map i (.Completed b)} i with
    | none =>
      rw [hub] at ha
      exact absurd ha (by simp)
    | some pm3 =>
      rw [hub] at ha
      simp only [Option.some.injEq, Prod.mk.injEq] at ha
      obtain ⟨h2, _⟩ := ha
      simp only [updateBitfield] at hub
      cases hb0 : pm.bitfield.get? (i / 8) with
      | none =>
        rw [hb0] at hub
        exact absurd hub (by simp)
      | some b0 =>
        rw [hb0] at hub
        simp only [Option.some.injEq] at hub
        refine ⟨b0, rfl, ?_⟩
        have hbf3 : pm3.bitfield = pm.bitfield.set (i / 8) (b0 ||| 1 <<< (7 - i % 8)) := by
          rw [← hub]
        rw [← h2]
        by_cases hss : shouldSave pm3 = true
        · rw [if_pos hss]
          exact hbf3
        · rw [if_neg hss]
          exact hbf3
  · have hvf : isPieceValid pm i b = false := by simpa using hv
    rw [hvf] at ha
    simp at ha

theorem scanBits_result : ∀ (bits : List Nat) (pm : PieceManager) (diff index : Nat)
    (pm2 : PieceManager) (found : Nat),
    scanBits pm diff index bits = some (pm2, found) →
    pm2.bitfield = pm.bitfield ∧ ∃ bit ∈ bits, found = index * 8 + bit ∧
      diff &&& (1 <<< (7 - bit)) ≠ 0 := by
  intro bits
  induction bits with
  | nil =>
    intro pm diff index pm2 found h
    simp [scanBits] at h
  | cons bit bits2 ih =>
    intro pm diff index pm2 found h
    simp only [scanBits] at h
    by_cases hm : diff &&& (1 <<< (7 - bit)) ≠ 0
    · rw [if_pos hm] at h
      cases hg : hmGet pm.piece_map (index * 8 + bit) with
      | none =>
        rw [hg] at h
        simp only [Option.some.injEq, Prod.mk.injEq] at h
        obtain ⟨h1, h2⟩ := h
        exact ⟨by rw [← h1], bit, List.mem_cons_self _ _, h2.symm, hm⟩
      | some st =>
        rw [hg] at h
        cases st with
        | InProgress =>
          obtain ⟨hb, bit2, hmem, hrest⟩ := ih pm diff index pm2 found h
          exact ⟨hb, bit2, List.mem_cons_of_mem _ hmem, hrest⟩
        | Completed bytes =>
          obtain ⟨hb, bit2, hmem, hrest⟩ := ih pm diff index pm2 found h
          exact ⟨hb, bit2, List.mem_cons_of_mem _ hmem, hrest⟩
        | NotStarted =>
          simp only [Option.some.injEq, Prod.mk.injEq] at h
          obtain ⟨h1, h2⟩ := h
          exact ⟨by rw [← h1], bit, List.mem_cons_self _ _, h2.symm, hm⟩
        | OnDisk =>
          simp only [Option.some.injEq, Prod.mk.injEq] at h
          obtain ⟨h1, h2⟩ := h
          exact ⟨by rw [← h1], bit, List.mem_cons_self _ _, h2.symm, hm⟩
    · rw [if_neg hm] at h
      obtain ⟨hb, bit2, hmem, hrest⟩ := ih pm diff index pm2 found h
      exact ⟨hb, bit2, List.mem_cons_of_mem _ hmem, hrest⟩

theorem getNextPieceAux_result : ∀ (pairs : List (Nat × Nat)) (pm : PieceManager)
    (k : Nat) (pm2 : PieceManager) (r : Option Nat),
    getNextPieceAux pm pairs k = (pm2, r) →
    pm2.bitfield = pm.bitfield ∧ ∀ found, r = some found →
      ∃ j p bit, pairs.get? j = some p ∧ bit < 8 ∧ found = (k + j) * 8 + bit ∧
        ((p.1 ^^^ 255) &&& p.2) &&& (1 <<< (7 - bit)) ≠ 0 := by
  intro pairs
  induction pairs with
  | nil =>
    intro pm k pm2 r h
    simp only [getNextPieceAux, Prod.mk.injEq] at h
    obtain ⟨h1, h2⟩ := h
    refine ⟨by rw [← h1], ?_⟩
    intro found hf
    rw [← h2] at hf
    exact absurd hf (by simp)
  | cons p rest ih =>
    intro pm k pm2 r h
    obtain ⟨mine, theirs⟩ := p
    simp only [getNextPieceAux] at h
    by_cases hd : ((mine ^^^ 255) &&& theirs) = 0
    · rw [if_pos hd] at h
      obtain ⟨hb, hex⟩ := ih pm (k + 1) pm2 r h
      refine ⟨hb, ?_⟩
      intro found hf
      obtain ⟨j, p2, bit, hj, hbit, heq, hmask⟩ := hex found hf
      refine ⟨j + 1, p2, bit, by simpa using hj, hbit, by omega, hmask⟩
    · rw [if_neg hd] at h
      cases hs : scanBits pm ((mine ^^^ 255) &&& theirs) k [0, 1, 2, 3, 4, 5, 6, 7] with
      | some pr =>
        rw [hs] at h
        obtain ⟨pm3, found3⟩ := pr
        simp only [Prod.mk.injEq] at h
        obtain ⟨h1, h2⟩ := h
        obtain ⟨hb, bit, hmem, heq3, hmask⟩ :=
          scanBits_result _ pm _ k pm3 found3 hs
        refine ⟨by rw [← h1]; exact hb, ?_⟩
        intro found hf
        rw [← h2] at hf
        have hfd : found3 = found := by
          simpa using hf
        have hbit8 : bit < 8 := by
          simp only [List.mem_cons, List.mem_singleton] at hmem
          rcases hmem with rfl | rfl | rfl | rfl | rfl | rfl | rfl | rfl | hx
          · omega
          · omega
          · omega
          · omega
          · omega
          · omega
          · omega
          · omega
          · simp at hx
        exact ⟨0, (mine, theirs), bit, by simp, hbit8, by omega, hmask⟩
      | none =>
        rw [hs] at h
        obtain ⟨hb, hex⟩ := ih pm (k + 1) pm2 r h
        refine ⟨hb, ?_⟩
        intro found hf
        obtain ⟨j, p2, bit, hj, hbit, heq, hmask⟩ := hex found hf
        refine ⟨j + 1, p2, bit, by simpa using hj, hbit, by omega, hmask⟩

/-- C4: when `add_piece(i, b)` returns `true`, the bitfield snapshot
has bit `i` set in the mask form of the source (byte `i / 8`, mask
`1 <<< (7 - i % 8)`), and `get_next_piece` on *any* state showing that
bit and *any* peer bitfield never returns `i` again (and leaves the
bitfield unchanged, so the guarantee persists across subsequent
calls). -/
theorem addPiece_true_bit_set (pm : PieceManager) (i : Nat) (b : List Nat)
    (pm2 : PieceManager) (hrange : i < pm.piece_hashes.length)
    (ha : addPiece pm i b = some (pm2, true)) :
    bitfieldBit (getBitfield pm2) i = true ∧
    ∀ s bf, bitfieldBit s.bitfield i = true →
      (getNextPiece s bf).2 ≠ some i ∧ (getNextPiece s bf).1.bitfield = s.bitfield := by
  obtain ⟨b0, hb0, hbf⟩ := addPiece_true_shape pm i b pm2 ha
  constructor
  · have hlen : i / 8 < pm.bitfield.length := (List.get?_eq_some.mp hb0).1
    unfold bitfieldBit getBitfield
    rw [hbf, List.get?_set_eq_of_lt _ hlen]
    have ht : (b0 ||| 1 <<< (7 - i % 8)).testBit (7 - i % 8) = true := by
      rw [Nat.one_shiftLeft, Nat.testBit_lor, Nat.testBit_two_pow_self]
      simp
    simp only [decide_eq_true_eq]
    exact (and_shift_ne_zero _ _).mpr ht
  · intro s bf hbit
    have hgnp : getNextPieceAux s (s.bitfield.zip bf) 0 =
        ((getNextPiece s bf).1, (getNextPiece s bf).2) := rfl
    obtain ⟨hbfeq, hex⟩ :=
      getNextPieceAux_result (s.bitfield.zip bf) s 0 (getNextPiece s bf).1
        (getNextPiece s bf).2 hgnp
    refine ⟨?_, hbfeq⟩
    intro hc
    obtain ⟨j, p, bit, hj, hbit8, hieq, hmask⟩ := hex i hc
    rw [List.get?_zip_eq_some] at hj
    obtain ⟨hj1, hj2⟩ := hj
    have hj8 : j = i / 8 := by omega
    have hbit8eq : bit = i % 8 := by omega
    subst hj8
    subst hbit8eq
    unfold bitfieldBit at hbit
    rw [hj1] at hbit
    simp only [decide_eq_true_eq] at hbit
    have htp : p.1.testBit (7 - i % 8) = true := (and_shift_ne_zero _ _).mp hbit
    have htm : ((p.1 ^^^ 255) &&& p.2).testBit (7 - i % 8) = true :=
      (and_shift_ne_zero _ _).mp hmask
    rw [Nat.testBit_land, Nat.testBit_xor] at htm
    have h255 : (255 : Nat).testBit (7 - i % 8) = true := by
      have hlt : 7 - i % 8 < 8 := by omega
      interval_cases h : (7 - i % 8) <;> rfl
    rw [htp, h255] at htm
    simp at htm

/-- Witness for C4 at a concrete download: one piece whose hash
matches. -/
theorem addPiece_true_bit_set_witness :
    (0 < ([sha1 [1, 2, 3]] : List (List Nat)).length) ∧
    addPiece ⟨[0], [sha1 [1, 2, 3]], 3, List.replicate 20 0, []⟩ 0 [1, 2, 3] =
      some (⟨[128], [sha1 [1, 2, 3]], 3, List.replicate 20 0, [(0, .OnDisk)]⟩, true) ∧
    (bitfieldBit (getBitfield ⟨[128], [sha1 [1, 2, 3]], 3, List.replicate 20 0,
      [(0, .OnDisk)]⟩) 0 = true ∧
    ∀ s bf, bitfieldBit s.bitfield 0 = true →
      (getNextPiece s bf).2 ≠ some 0 ∧ (getNextPiece s bf).1.bitfield = s.bitfield) :=
  ⟨by decide, by rfl,
    addPiece_true_bit_set ⟨[0], [sha1 [1, 2, 3]], 3, List.replicate 20 0, []⟩ 0 [1, 2, 3]
      ⟨[128], [sha1 [1, 2, 3]], 3, List.replicate 20 0, [(0, .OnDisk)]⟩ (by decide)
      (by rfl)⟩

/-! ### Message codec lemmas -/

theorem be32_u32be (n : Nat) (l : List Nat) : be32 (u32be n ++ l) = n % 2 ^ 32 := by
  simp [be32, u32be, List.getD]
  omega

theorem be16_u16be (n : Nat) : be16 (u16be n) = n % 2 ^ 16 := by
  simp [be16, u16be, List.getD]
  omega

/-- C6 (amended): serialize-then-parse is the identity for every
representable peer-wire message *except* `Bitfield` with an empty byte
sequence: its frame has length prefix 1, for which `from_bytes` takes no
payload and fails `MissingPayload` (see the counterexample).  `Piece`
with an empty block, `KeepAlive`, and all other variants round-trip. -/
theorem message_roundtrip (m : Message) (hwf : wellFormedMsg m = true)
    (hne : m ≠ .Bitfield []) :
    Message.fromBytes (Message.toBytes m) = .ok m := by
  cases m with
  | KeepAlive => rfl
  | Choke => rfl
  | Unchoke => rfl
  | Interested => rfl
  | NotInterested => rfl
  | Have index =>
    simp only [wellFormedMsg, decide_eq_true_eq] at hwf
    show Message.fromBytes (u32be 5 ++ [4] ++ u32be index) = .ok (.Have index)
    have h5 : (u32be 5 ++ [4] ++ u32be index) = 0 :: 0 :: 0 :: 5 :: 4 :: u32be index := by
      norm_num [u32be]
    rw [h5]
    unfold Message.fromBytes
    simp [be32, List.getD, u32be]
    omega
  | Bitfield bf =>
    simp only [wellFormedMsg, decide_eq_true_eq] at hwf
    have hne2 : bf ≠ [] := by
      intro hc
      exact hne (by rw [hc])
    show Message.fromBytes (u32be (1 + bf.length) ++ [5] ++ bf) = .ok (.Bitfield bf)
    have hlen : 0 < bf.length := List.length_pos.mpr hne2
    have hsh : u32be (1 + bf.length) ++ [5] ++ bf =
        (1 + bf.length) / 2 ^ 24 % 256 :: (1 + bf.length) / 2 ^ 16 % 256 ::
        (1 + bf.length) / 2 ^ 8 % 256 :: (1 + bf.length) % 256 :: 5 :: bf := by
      simp [u32be]
    rw [hsh]
    have hbe : be32 ((1 + bf.length) / 2 ^ 24 % 256 :: (1 + bf.length) / 2 ^ 16 % 256 ::
        (1 + bf.length) / 2 ^ 8 % 256 :: (1 + bf.length) % 256 :: 5 :: bf) =
        1 + bf.length := by
      simp [be32, List.getD]
      omega
    unfold Message.fromBytes
    rw [hbe]
    simp only [List.length_cons]
    rw [if_neg (by omega)]
    rw [if_neg (by omega)]
    simp only [List.get?]
    rw [if_neg (by omega)]
    rw [if_neg (by omega)]
    rw [if_pos (by omega)]
    simp [List.take_length, show 1 + bf.length - 1 = bf.length by omega]
  | Request index begin_ length =>
    simp only [wellFormedMsg, Bool.and_eq_true, decide_eq_true_eq] at hwf
    show Message.fromBytes (u32be 13 ++ [6] ++ u32be index ++ u32be begin_ ++
      u32be length) = .ok (.Request index begin_ length)
    have hsh : u32be 13 ++ [6] ++ u32be index ++ u32be begin_ ++ u32be length =
        0 :: 0 :: 0 :: 13 :: 6 :: (u32be index ++ u32be begin_ ++ u32be length) := by
      norm_num [u32be]
    rw [hsh]
    have hbe : be32 (0 :: 0 :: 0 :: 13 :: 6 ::
        (u32be index ++ u32be begin_ ++ u32be length)) = 13 := by
      simp [be32, List.getD]
    have hplen : (u32be index ++ u32be begin_ ++ u32be length).length = 12 := by
      simp [u32be]
    unfold Message.fromBytes
    rw [hbe]
    simp only [List.length_cons, hplen]
    rw [if_neg (by omega)]
    rw [if_neg (by omega)]
    simp only [List.get?]
    rw [if_neg (by omega)]
    rw [if_neg (by omega)]
    rw [if_pos (by omega)]
    have htake : (u32be index ++ u32be begin_ ++ u32be length).take (13 - 1) =
        u32be index ++ u32be begin_ ++ u32be length := by
      rw [show (13 : Nat) - 1 = (u32be index ++ u32be begin_ ++ u32be length).length by
        rw [hplen]]
      exact List.take_length _
    have hb1 : be32 (u32be index ++ u32be begin_ ++ u32be length) = index := by
      rw [List.append_assoc, be32_u32be]
      omega
    have hd4 : (u32be index ++ u32be begin_ ++ u32be length).drop 4 =
        u32be begin_ ++ u32be length := by
      simp [u32be]
    have hb2 : be32 (u32be begin_ ++ u32be length) = begin_ := by
      rw [be32_u32be]
      omega
    have hd8 : (u32be index ++ u32be begin_ ++ u32be length).drop 8 = u32be length := by
      simp [u32be]
    have hb3 : be32 (u32be length) = length := by
      have := be32_u32be length []
      simp only [List.append_nil] at this
      rw [this]
      omega
    simp only [List.drop_succ_cons, List.drop_zero, htake, hplen, hb1, hd4, hb2, hd8, hb3]
    rw [if_neg (by omega)]
  | Piece index begin_ block =>
    simp only [wellFormedMsg, Bool.and_eq_true, decide_eq_true_eq] at hwf
    show Message.fromBytes (u32be (9 + block.length) ++ [7] ++ u32be index ++
      u32be begin_ ++ block) = .ok (.Piece index begin_ block)
    have hsh : u32be (9 + block.length) ++ [7] ++ u32be index ++ u32be begin_ ++ block =
        (9 + block.length) / 2 ^ 24 % 256 :: (9 + block.length) / 2 ^ 16 % 256 ::
        (9 + block.length) / 2 ^ 8 % 256 :: (9 + block.length) % 256 :: 7 ::
        (u32be index ++ u32be begin_ ++ block) := by
      simp [u32be]
    rw [hsh]
    have hbe : be32 ((9 + block.length) / 2 ^ 24 % 256 ::
        (9 + block.length) / 2 ^ 16 % 256 :: (9 + block.length) / 2 ^ 8 % 256 ::
        (9 + block.length) % 256 :: 7 :: (u32be index ++ u32be begin_ ++ block)) =
        9 + block.length := by
      simp [be32, List.getD]
      omega
    have hplen : (u32be index ++ u32be begin_ ++ block).length = 8 + block.length := by
      simp [u32be]
      omega
    unfold Message.fromBytes
    rw [hbe]
    simp only [List.length_cons, hplen]
    rw [if_neg (by omega)]
    rw [if_neg (by omega)]
    simp only [List.get?]
    rw [if_neg (by omega)]
    rw [if_neg (by omega)]
    rw [if_pos (by omega)]
    have hdrop : ((9 + block.length) / 2 ^ 24 % 256 ::
        (9 + block.length) / 2 ^ 16 % 256 :: (9 + block.length) / 2 ^ 8 % 256 ::
        (9 + block.length) % 256 :: 7 ::
        (u32be index ++ u32be begin_ ++ block)).drop 5 =
        u32be index ++ u32be begin_ ++ block := by
      simp
    rw [hdrop]
    have htake : (u32be index ++ u32be begin_ ++ block).take (9 + block.length - 1) =
        u32be index ++ u32be begin_ ++ block := by
      rw [show 9 + block.length - 1 = (u32be index ++ u32be begin_ ++ block).length by
        rw [hplen]; omega]
      exact List.take_length _
    rw [htake]
    have hb1 : be32 (u32be index ++ u32be begin_ ++ block) = index := by
      rw [List.append_assoc, be32_u32be]
      omega
    have hd4 : (u32be index ++ u32be begin_ ++ block).drop 4 = u32be begin_ ++ block := by
      simp [u32be]
    have hb2 : be32 (u32be begin_ ++ block) = begin_ := by
      rw [be32_u32be]
      omega
    have hd8 : (u32be index ++ u32be begin_ ++ block).drop 8 = block := by
      simp [u32be]
    simp only [hplen, hb1, hd4, hb2, hd8]
    rw [if_neg (by omega)]
  | Cancel index begin_ length =>
    simp only [wellFormedMsg, Bool.and_eq_true, decide_eq_true_eq] at hwf
    show Message.fromBytes (u32be 13 ++ [8] ++ u32be index ++ u32be begin_ ++
      u32be length) = .ok (.Cancel index begin_ length)
    have hsh : u32be 13 ++ [8] ++ u32be index ++ u32be begin_ ++ u32be length =
        0 :: 0 :: 0 :: 13 :: 8 :: (u32be index ++ u32be begin_ ++ u32be length) := by
      norm_num [u32be]
    rw [hsh]
    have hbe : be32 (0 :: 0 :: 0 :: 13 :: 8 ::
        (u32be index ++ u32be begin_ ++ u32be length)) = 13 := by
      simp [be32, List.getD]
    have hplen : (u32be index ++ u32be begin_ ++ u32be length).length = 12 := by
      simp [u32be]
    unfold Message.fromBytes
    rw [hbe]
    simp only [List.length_cons, hplen]
    rw [if_neg (by omega)]
    rw [if_neg (by omega)]
    simp only [List.get?]
    rw [if_neg (by omega)]
    rw [if_neg (by omega)]
    rw [if_pos (by omega)]
    have htake : (u32be index ++ u32be begin_ ++ u32be length).take (13 - 1) =
        u32be index ++ u32be begin_ ++ u32be length := by
      rw [show (13 : Nat) - 1 = (u32be index ++ u32be begin_ ++ u32be length).length by
        rw [hplen]]
      exact List.take_length _
    have hb1 : be32 (u32be index ++ u32be begin_ ++ u32be length) = index := by
      rw [List.append_assoc, be32_u32be]
      omega
    have hd4 : (u32be index ++ u32be begin_ ++ u32be length).drop 4 =
        u32be begin_ ++ u32be length := by
      simp [u32be]
    have hb2 : be32 (u32be begin_ ++ u32be length) = begin_ := by
      rw [be32_u32be]
      omega
    have hd8 : (u32be index ++ u32be begin_ ++ u32be length).drop 8 = u32be length := by
      simp [u32be]
    have hb3 : be32 (u32be length) = length := by
      have := be32_u32be length []
      simp only [List.append_nil] at this
      rw [this]
      omega
    simp only [List.drop_succ_cons, List.drop_zero, htake, hplen, hb1, hd4, hb2, hd8, hb3]
    rw [if_neg (by omega)]
  | Port port =>
    simp only [wellFormedMsg, decide_eq_true_eq] at hwf
    show Message.fromBytes (u32be 3 ++ [9] ++ u16be port) = .ok (.Port port)
    have hsh : u32be 3 ++ [9] ++ u16be port = 0 :: 0 :: 0 :: 3 :: 9 :: u16be port := by
      norm_num [u32be]
    rw [hsh]
    have hbe : be32 (0 :: 0 :: 0 :: 3 :: 9 :: u16be port) = 3 := by
      simp [be32, List.getD]
    have hplen : (u16be port).length = 2 := by simp [u16be]
    unfold Message.fromBytes
    rw [hbe]
    simp only [List.length_cons, hplen]
    rw [if_neg (by omega)]
    rw [if_neg (by omega)]
    simp only [List.get?]
    rw [if_neg (by omega)]
    rw [if_neg (by omega)]
    rw [if_pos (by omega)]
    have htake : (u16be port).take (3 - 1) = u16be port := by
      rw [show (3 : Nat) - 1 = (u16be port).length by rw [hplen]]
      exact List.take_length _
    have hb : be16 (u16be port) = port := by
      rw [be16_u16be]
      omega
    simp only [List.drop_succ_cons, List.drop_zero, htake, hplen, hb]
    rw [if_neg (by omega)]

/-- Witness for C6 at concrete messages, a `Piece` carrying an empty
block among them. -/
theorem message_roundtrip_witness :
    Message.fromBytes (Message.toBytes (.Have 3)) = .ok (.Have 3) ∧
    Message.fromBytes (Message.toBytes (.Piece 1 2 [])) = .ok (.Piece 1 2 []) :=
  ⟨message_roundtrip (.Have 3) (by decide) (by decide),
    message_roundtrip (.Piece 1 2 []) (by decide) (by decide)⟩

/-- C6 counterexample: the claim as frozen includes a `Bitfield` with an
empty byte sequence, but its four-plus-one-byte frame declares length 1,
for which the parser takes no payload and fails `MissingPayload` rather
than returning the message. -/
theorem bitfield_empty_no_roundtrip :
    wellFormedMsg (.Bitfield []) = true ∧
    Message.fromBytes (Message.toBytes (.Bitfield [])) = .err .MissingPayload := by
  exact ⟨by rfl, by rfl⟩

/-! ### Metadata lemmas -/

theorem sha1_length (msg : List Nat) : (sha1 msg).length = 20 := by
  unfold sha1
  obtain ⟨a, b, c, d, e⟩ := (chunks64 (sha1Pad msg)).foldl sha1Block
    (1732584193, 4023233417, 2562383102, 271733878, 3285377520)
  simp [bytesOfWord32]

/-- C1: whenever a metadata dictionary `M` holding an `info`
sub-dictionary decodes successfully, the resulting metadata carries an
info-hash equal to SHA-1 of the canonical re-encoding (ascending keys,
which is how the sorted map is stored and emitted) of the `info` value,
and that hash is 20 bytes long.  The hash computation itself is
modelled from the spec (`metaInfoFromBencodemap`): the `meta_info.rs`
under `src/` carries no `hash` field even though the rest of the
repository reads one. -/
theorem metaInfo_hash_canonical (m im : List (List Nat × Bencode)) (mi : MetaInfo)
    (hinfo : mapLookup m INFO_KEY = some (.dict im))
    (hdec : metaInfoFromBencodemap m = some (.ok mi)) :
    mi.hash = sha1 (encodeB (.dict im)) ∧ mi.hash.length = 20 := by
  unfold metaInfoFromBencodemap at hdec
  split at hdec
  · simp at hdec
  · have hg : getDecodeMap m INFO_KEY = some im := by
      simp [getDecodeMap, hinfo]
    simp only [hg] at hdec
    cases ht : torrentInfoFromBencodemap im with
    | none =>
      simp only [ht] at hdec
      exact absurd hdec (by simp)
    | some r =>
      cases r with
      | error e =>
        simp only [ht] at hdec
        exact absurd hdec (by simp)
      | ok ti =>
        simp only [ht] at hdec
        injection hdec with h1
        injection h1 with h2
        rw [← h2]
        exact ⟨rfl, sha1_length (encodeB (.dict im))⟩

/-- Witness for C1 at a concrete single-file torrent dictionary. -/
theorem metaInfo_hash_canonical_witness :
    mapLookup metaSample INFO_KEY = some (.dict infoSample) ∧
    metaInfoFromBencodemap metaSample = some (.ok miSample) ∧
    (miSample.hash = sha1 (encodeB (.dict infoSample)) ∧ miSample.hash.length = 20) := by
  refine ⟨?h1, ?h2, ?h3⟩
  case h1 => rfl
  case h2 => rfl
  case h3 => exact metaInfo_hash_canonical metaSample infoSample miSample rfl rfl
